import Mathlib

/-!
# dynamodb-simple-inventory: a single-table order store

A shallow embedding of `models.go`, `repository.go` and `handlers.go`.

* Go strings are byte sequences (`GoString`); `s[n:]` is `goSliceFrom`, which fails when
  `n` exceeds the length, as the Go slice expression panics.
* The DynamoDB table is a list of items; the client carries the table, the outcomes the
  service will give to the coming calls (`faults`) and the requests issued so far (`log`).
  Secondary indexes are read as views of the table, always up to date.
* `time.Time` values are kept as their `RFC3339Nano` text, fraction and zone offset included.
-/

namespace Inventory

/-! ## Strings -/

/-- Go `string`: an immutable sequence of bytes. -/
abbrev GoString := List UInt8

/-- Bytes of an ASCII literal of the source (one byte per character). -/
def lit (s : String) : GoString := s.toList.map (fun c => UInt8.ofNat c.toNat)

/-- Go slice expression `s[n:]`: the bytes from offset `n` on; out of range when `n > len(s)`. -/
def goSliceFrom (s : GoString) (n : Nat) : Option GoString :=
  if n ≤ s.length then some (s.drop n) else none

/-- Bytewise lexicographic order, the order DynamoDB gives to keys of type `S`. -/
def bytesLE : GoString → GoString → Bool
  | [], _ => true
  | _ :: _, [] => false
  | a :: as, b :: bs => decide (a.toNat < b.toNat) || (a == b && bytesLE as bs)

/-- Error values are carried as their message (`err.Error()`). -/
abbrev Error := String

/-! ## Attribute values and items -/

/-- DynamoDB attribute values (`types.AttributeValue`), the members this program meets. -/
inductive AttributeValue where
  | S (v : GoString)
  | N (v : GoString)
  | NULL
  | M (v : List (String × AttributeValue))

/-- An item, `map[string]types.AttributeValue`, as an association list with one entry per name. -/
abbrev Item := List (String × AttributeValue)

/-- Map read `item[name]`. -/
def Item.get (it : Item) (name : String) : Option AttributeValue := List.lookup name it

/-- Map entry removal. -/
def Item.remove (it : Item) (name : String) : Item := it.filter (fun p => p.1 != name)

/-- Map write `item[name] = v`. -/
def Item.set (it : Item) (name : String) (v : AttributeValue) : Item :=
  Item.remove it name ++ [(name, v)]

/-- The string held by attribute `name`, when the attribute is present with type `S`. -/
def Item.str (it : Item) (name : String) : Option GoString :=
  match Item.get it name with
  | some (.S v) => some v
  | _ => none

/-- Primary key of a table item: partition key `pk` and sort key `sk`, both of type `S`. -/
structure Key where
  pk : GoString
  sk : GoString
  deriving DecidableEq, Repr

/-- The primary key of an item, if it carries both key attributes with type `S`. -/
def Item.key (it : Item) : Option Key :=
  match Item.str it "pk", Item.str it "sk" with
  | some p, some s => some ⟨p, s⟩
  | _, _ => none

/-! ## Time -/

/-- ASCII digit test. -/
def isDigit (b : UInt8) : Bool := decide (48 ≤ b.toNat) && decide (b.toNat ≤ 57)

/-- Value of a two-digit decimal field. -/
def num2 (a b : UInt8) : Nat := (a.toNat - 48) * 10 + (b.toNat - 48)

/-- Number of days of a month of the proleptic Gregorian calendar. -/
def daysIn (year month : Nat) : Nat :=
  if month = 2 then
    (if year % 4 = 0 ∧ (year % 100 ≠ 0 ∨ year % 400 = 0) then 29 else 28)
  else if month = 4 ∨ month = 6 ∨ month = 9 ∨ month = 11 then 30
  else 31

/-- Value of a run of decimal digits. -/
def digitsValue (s : GoString) : Nat := s.foldl (fun x b => x * 10 + (b.toNat - 48)) 0

/-- Two decimal digits, as `appendInt(b, n, 2)` writes a number below 100. -/
def pad2 (n : Nat) : GoString := [UInt8.ofNat (48 + n / 10 % 10), UInt8.ofNat (48 + n % 10)]

/-- Four decimal digits, as `appendInt(b, n, 4)` writes a number below 10000. -/
def pad4 (n : Nat) : GoString :=
  [UInt8.ofNat (48 + n / 1000 % 10), UInt8.ofNat (48 + n / 100 % 10),
   UInt8.ofNat (48 + n / 10 % 10), UInt8.ofNat (48 + n % 10)]

/-- A literal byte of the layout. -/
def expectByte (b : UInt8) : GoString → Option GoString
  | c :: rest => if c = b then some rest else none
  | [] => none

/-- A two-digit field (`getnum` with `fixed`). -/
def takeTwo : GoString → Option (Nat × GoString)
  | a :: b :: rest => if isDigit a && isDigit b then some (num2 a b, rest) else none
  | _ => none

/-- The hour field, of one or two digits (`getnum` without `fixed`). -/
def takeHour : GoString → Option (Nat × GoString)
  | a :: b :: rest =>
    if isDigit a then
      (if isDigit b then some (num2 a b, rest) else some (a.toNat - 48, b :: rest))
    else none
  | [a] => if isDigit a then some (a.toNat - 48, []) else none
  | [] => none

/-- Digits without their trailing zeros. -/
def trimZeros (ds : GoString) : GoString := (ds.reverse.dropWhile (fun b => b == 48)).reverse

/-- The fraction of a second, if the text goes on with a period or a comma and a digit: the
digits are read to nanoseconds (nine digits) and written back as `RFC3339Nano` writes them,
a period and the digits without trailing zeros, nothing for zero. Gives that text and what
follows the fraction. -/
def takeFraction (s : GoString) : GoString × GoString :=
  match s with
  | sep :: d :: _ =>
    if (sep = 46 ∨ sep = 44) ∧ isDigit d = true then
      let kept := trimZeros (((s.drop 1).takeWhile isDigit).take 9)
      (if kept = [] then [] else 46 :: kept, (s.drop 1).dropWhile isDigit)
    else ([], s)
  | _ => ([], s)

/-- The zone of layout `Z07:00`: `Z`, or a sign, two digits of hours (at most 24), a colon
and two digits of minutes (at most 60). Gives the zone as the layout writes that offset
(`Z` for the offset zero) and what follows. -/
def takeZone : GoString → Option (GoString × GoString)
  | [] => none
  | c :: rest =>
    if c = 90 then some ([90], rest)
    else
      match rest with
      | h1 :: h2 :: colon :: m1 :: m2 :: tail =>
        if (c = 43 ∨ c = 45) ∧ colon = 58 ∧ [h1, h2, m1, m2].all isDigit = true
            ∧ num2 h1 h2 ≤ 24 ∧ num2 m1 m2 ≤ 60 then
          let total := num2 h1 h2 * 60 + num2 m1 m2
          some (if total = 0 then [90]
            else c :: pad2 (total / 60) ++ 58 :: pad2 (total % 60), tail)
        else none
      | _ => none

/-- The clock part `15:04:05` of layout `time.RFC3339`, with the fraction the parser accepts
after the seconds, the zone, and nothing after it. -/
def parseClock (s : GoString) : Option GoString := do
  let (hour, s1) ← takeHour s
  let s2 ← expectByte 58 s1
  let (minute, s3) ← takeTwo s2
  let s4 ← expectByte 58 s3
  let (second, s5) ← takeTwo s4
  let (fraction, s6) := takeFraction s5
  let (zone, s7) ← takeZone s6
  if s7 = [] ∧ hour < 24 ∧ minute < 60 ∧ second < 60 then
    some (pad2 hour ++ 58 :: pad2 minute ++ 58 :: pad2 second ++ fraction ++ zone)
  else none

/-- The parser `time.Parse(time.RFC3339, s)`, on text: when the text is accepted, the result is the
text that `Format(time.RFC3339Nano)` gives for the time parsed. -/
def parseRFC3339 : GoString → Option GoString
  | y1 :: y2 :: y3 :: y4 :: h1 :: m1 :: m2 :: h2 :: d1 :: d2 :: t :: rest =>
    if [y1, y2, y3, y4, m1, m2, d1, d2].all isDigit = true ∧ h1 = 45 ∧ h2 = 45 ∧ t = 84
        ∧ 1 ≤ num2 m1 m2 ∧ num2 m1 m2 ≤ 12 ∧ 1 ≤ num2 d1 d2
        ∧ num2 d1 d2 ≤ daysIn (num2 y1 y2 * 100 + num2 y3 y4) (num2 m1 m2) then
      match parseClock rest with
      | some clock => some ([y1, y2, y3, y4, 45, m1, m2, 45, d1, d2, 84] ++ clock)
      | none => none
    else none
  | _ => none

/-- Go `time.Time`, kept as the text `Format(time.RFC3339Nano)` gives for it, with its
fraction of a second and its zone offset: the texts that the parser reads back to
themselves. Years 0 to 9999 and offsets of whole minutes, as clock readings and parsed
times have. -/
abbrev Time := { s : GoString // parseRFC3339 s = some s }

/-- Layout `time.RFC3339Nano`: the text the time is kept as. -/
def Time.formatRFC3339Nano (t : Time) : GoString := t.val

/-- Layout `time.RFC3339`: date, clock and zone, without the fraction of a second. -/
def Time.formatRFC3339 (t : Time) : GoString :=
  t.val.take 19 ++ (takeFraction (t.val.drop 19)).2

/-- Layout `"2006-01-02"`: the date, which is the first ten bytes of the RFC 3339 text. -/
def Time.formatDate (t : Time) : GoString := t.val.take 10

/-- The zero `time.Time`, January 1 of year 1, 00:00:00 UTC. -/
def Time.zero : Time := ⟨lit "0001-01-01T00:00:00Z", by decide⟩

/-- The civil date of a day number counted from 1970-01-01. -/
def civilFromDays (days : Int) : Int × Int × Int :=
  let z := days + 719468
  let era := z / 146097
  let doe := z - era * 146097
  let yoe := (doe - doe / 1460 + doe / 36524 - doe / 146096) / 365
  let doy := doe - (365 * yoe + yoe / 4 - yoe / 100)
  let mp := (5 * doy + 2) / 153
  let d := doy - (153 * mp + 2) / 5 + 1
  let m := if mp < 10 then mp + 3 else mp - 9
  (if m ≤ 2 then yoe + era * 400 + 1 else yoe + era * 400, m, d)

/-- The day number, counted from 1970-01-01, of a civil date. -/
def daysFromCivil (year month day : Int) : Int :=
  let y := if month ≤ 2 then year - 1 else year
  let era := y / 400
  let yoe := y - era * 400
  let doy := (153 * (if month > 2 then month - 3 else month + 9) + 2) / 5 + day - 1
  let doe := yoe * 365 + yoe / 4 - yoe / 100 + doy
  era * 146097 + doe - 719468

/-- The number `strconv.ParseInt(s, 10, 64)` reads: an optional sign and decimal digits,
within 64 bits. -/
def parseInt64 (s : GoString) : Option Int :=
  let body := match s with
    | c :: rest => if c = 43 ∨ c = 45 then rest else s
    | [] => []
  let negative := match s with
    | c :: _ => decide (c = 45)
    | [] => false
  if body ≠ [] ∧ body.all isDigit = true then
    (if negative then
      (if digitsValue body ≤ 2 ^ 63 then some (-(digitsValue body : Int)) else none)
    else
      (if digitsValue body < 2 ^ 63 then some (digitsValue body : Int) else none))
  else none

/-- The time `time.Unix(sec, 0)` as text, for the years 0 to 9999; the zone is written as
UTC. -/
def unixTimeText (sec : Int) : Option GoString :=
  let (y, m, d) := civilFromDays (sec / 86400)
  let r := (sec % 86400).toNat
  if 0 ≤ y ∧ y ≤ 9999 then
    some (pad4 y.toNat ++ 45 :: pad2 m.toNat ++ 45 :: pad2 d.toNat ++ 84 :: pad2 (r / 3600)
      ++ 58 :: pad2 (r % 3600 / 60) ++ 58 :: pad2 (r % 60) ++ [90])
  else none

/-- Minutes east of UTC that a zone text stands for. -/
def zoneMinutes : GoString → Int
  | [c, h1, h2, _, m1, m2] =>
    if c = 45 then -((num2 h1 h2 * 60 + num2 m1 m2 : Nat) : Int)
    else ((num2 h1 h2 * 60 + num2 m1 m2 : Nat) : Int)
  | _ => 0

/-- Nanoseconds since 1970-01-01T00:00:00Z. -/
def Time.unixNano (t : Time) : Int :=
  let s := t.val
  let year := digitsValue (s.take 4)
  let month := digitsValue ((s.drop 5).take 2)
  let day := digitsValue ((s.drop 8).take 2)
  let hour := digitsValue ((s.drop 11).take 2)
  let minute := digitsValue ((s.drop 14).take 2)
  let second := digitsValue ((s.drop 17).take 2)
  let tail := s.drop 19
  let frac := (tail.drop 1).takeWhile isDigit
  let nanos := if tail.head? = some 46 then
    digitsValue (frac ++ List.replicate (9 - frac.length) 48) else 0
  let zone := (takeFraction tail).2
  ((daysFromCivil year month day * 86400 + hour * 3600 + minute * 60 + second
      - zoneMinutes zone * 60) * 1000000000 + nanos : Int)

/-! ## models.go -/

/-- Go `type OrderStatus string`. -/
abbrev OrderStatus := GoString

def OrderStatusPending : OrderStatus := lit "pending"

def OrderStatusConfirmed : OrderStatus := lit "confirmed"

def OrderStatusShipped : OrderStatus := lit "shipped"

def OrderStatusDelivered : OrderStatus := lit "delivered"

def OrderStatusCancelled : OrderStatus := lit "cancelled"

structure Address where
  Street : GoString
  State : GoString
  Country : GoString
  deriving DecidableEq

structure User where
  Username : GoString
  FullName : GoString
  Email : GoString
  Addresses : Option (List (String × Address))
  deriving DecidableEq

structure Order where
  ID : GoString
  UserID : GoString
  Status : OrderStatus
  AddressKey : GoString
  CreatedAt : Time
  UpdatedAt : Time
  deriving DecidableEq

/-- Order line item; `Price` (a float64) and `Quantity` (an int) are kept as the decimal text
that the attribute of type `N` carries. -/
structure OrderItem where
  OrderID : GoString
  ItemID : GoString
  Name : GoString
  Description : GoString
  Price : GoString
  Quantity : GoString
  deriving DecidableEq

/-! ## attributevalue.MarshalMap / UnmarshalMap

The encoder writes one attribute per tagged field (`omitempty` fields only when non-zero);
the decoder leaves a field at its zero value when the attribute is absent or `NULL`,
reads a number into a string field as its text, and fails on a member it cannot put in the
field or on a time text it cannot parse. -/

def marshalAddress (a : Address) : AttributeValue :=
  .M ([("street", .S a.Street)]
    ++ (if a.State = [] then [] else [("state", .S a.State)])
    ++ [("country", .S a.Country)])

def marshalUser (u : User) : Item :=
  (if u.FullName = [] then [] else [("full_name", .S u.FullName)])
    ++ (if u.Email = [] then [] else [("email", .S u.Email)])
    ++ (match u.Addresses with
        | none => []
        | some entries => [("addresses", .M (entries.map (fun p => (p.1, marshalAddress p.2))))])

def marshalOrder (o : Order) : Item :=
  [("order_id", .S o.ID), ("user_id", .S o.UserID), ("status", .S o.Status),
   ("address_key", .S o.AddressKey),
   ("created_at", .S o.CreatedAt.formatRFC3339Nano),
   ("updated_at", .S o.UpdatedAt.formatRFC3339Nano)]

def marshalOrderItem (i : OrderItem) : Item :=
  [("order_id", .S i.OrderID), ("item_id", .S i.ItemID), ("name", .S i.Name),
   ("description", .S i.Description), ("price", .N i.Price), ("quantity", .N i.Quantity)]

def decodeString : Option AttributeValue → Except Error GoString
  | none => .ok []
  | some .NULL => .ok []
  | some (.S v) => .ok v
  | some (.N v) => .ok v
  | some (.M _) => .error "unmarshal type error"

def decodeNumber : Option AttributeValue → Except Error GoString
  | none => .ok (lit "0")
  | some .NULL => .ok (lit "0")
  | some (.N v) => .ok v
  | some _ => .error "unmarshal type error"

/-- A text that the parser or the Unix clock gave, as a `Time`. -/
def timeOfText (s : GoString) : Except Error Time :=
  if h : parseRFC3339 s = some s then .ok ⟨s, h⟩ else .error "parsing time"

/-- Decoding into a `time.Time` field: a string is parsed with layout `time.RFC3339`, a
number is read as Unix seconds, a map leaves the field as it is. -/
def decodeTime : Option AttributeValue → Except Error Time
  | none => .ok Time.zero
  | some .NULL => .ok Time.zero
  | some (.S v) =>
    match parseRFC3339 v with
    | some s => timeOfText s
    | none => .error "parsing time"
  | some (.N v) =>
    match parseInt64 v with
    | some sec =>
      match unixTimeText sec with
      | some s => timeOfText s
      | none => .error "year out of range"
    | none => .error "strconv.ParseInt: invalid syntax"
  | some (.M _) => .ok Time.zero

def decodeAddress : AttributeValue → Except Error Address
  | .NULL => .ok ⟨[], [], []⟩
  | .M fs => do
    let street ← decodeString (List.lookup "street" fs)
    let state ← decodeString (List.lookup "state" fs)
    let country ← decodeString (List.lookup "country" fs)
    pure ⟨street, state, country⟩
  | _ => .error "unmarshal type error"

def decodeAddresses :
    Option AttributeValue → Except Error (Option (List (String × Address)))
  | none => .ok none
  | some .NULL => .ok none
  | some (.M es) => (es.mapM (fun p => (decodeAddress p.2).map (fun a => (p.1, a)))).map some
  | some _ => .error "unmarshal type error"

/-- Decoding into a fresh `User`; `Username` has tag `-` and stays empty. -/
def unmarshalUser (it : Item) : Except Error User := do
  let fullName ← decodeString (it.get "full_name")
  let email ← decodeString (it.get "email")
  let addresses ← decodeAddresses (it.get "addresses")
  pure ⟨[], fullName, email, addresses⟩

/-- Decoding into a fresh `Order`. -/
def unmarshalOrder (it : Item) : Except Error Order := do
  let id ← decodeString (it.get "order_id")
  let userID ← decodeString (it.get "user_id")
  let status ← decodeString (it.get "status")
  let addressKey ← decodeString (it.get "address_key")
  let createdAt ← decodeTime (it.get "created_at")
  let updatedAt ← decodeTime (it.get "updated_at")
  pure ⟨id, userID, status, addressKey, createdAt, updatedAt⟩

/-- Decoding into a fresh `OrderItem`. -/
def unmarshalOrderItem (it : Item) : Except Error OrderItem := do
  let orderID ← decodeString (it.get "order_id")
  let itemID ← decodeString (it.get "item_id")
  let name ← decodeString (it.get "name")
  let description ← decodeString (it.get "description")
  let price ← decodeNumber (it.get "price")
  let quantity ← decodeNumber (it.get "quantity")
  pure ⟨orderID, itemID, name, description, price, quantity⟩

/-! ## The DynamoDB client -/

/-- The table and its two global secondary indexes, as declared by `CreateTable`. -/
inductive Index where
  | primary
  | inverted
  | placed
  deriving DecidableEq, Repr

/-- Partition key attribute of an index. -/
def Index.hashAttr : Index → String
  | .primary => "pk"
  | .inverted => "sk"
  | .placed => "placed_id"

/-- Sort key attribute of an index, if it has one. -/
def Index.rangeAttr : Index → Option String
  | .primary => some "sk"
  | .inverted => some "pk"
  | .placed => none

/-- The key condition expressions used by the repository, with their values bound. -/
inductive KeyCondition where
  | hashEq (v : GoString)
  | hashEqRangeEq (v : GoString) (r : GoString)
  | hashEqRangeBegins (v : GoString) (p : GoString)
  deriving DecidableEq, Repr

structure QueryInput where
  index : Index
  cond : KeyCondition
  limit : Option Nat
  scanIndexForward : Bool
  deriving DecidableEq, Repr

/-- An update expression with its names and values bound: attributes to `SET`, attributes
to `REMOVE`. -/
structure UpdateItemInput where
  key : Key
  sets : List (String × AttributeValue)
  removes : List String

inductive Request where
  | putItem (item : Item)
  | query (input : QueryInput)
  | updateItem (input : UpdateItemInput)
  | batchWriteItem (deleteKeys : List Item)

/-- The client with the service behind it: the table, the outcome the service gives to each
of the coming calls (`none` or an absent entry: the call goes through), and the requests
issued so far. -/
structure Client where
  table : List Item
  faults : List (Option Error)
  log : List Request

/-- Issue a request: it is logged, and the next scripted outcome is consumed. -/
def Client.call (c : Client) (r : Request) : Option Error × Client :=
  (match c.faults with
    | some e :: _ => some e
    | _ => none,
   { c with faults := c.faults.tail, log := c.log ++ [r] })

/-- Sort key of an item within an index (empty when the index has none). -/
def Index.rangeOf (ix : Index) (it : Item) : GoString :=
  match ix.rangeAttr with
  | some a => (Item.str it a).getD []
  | none => []

/-- Whether an item is listed by an index: it carries the index key attributes as strings. -/
def Index.lists (ix : Index) (it : Item) : Bool :=
  (Item.str it ix.hashAttr).isSome &&
    (match ix.rangeAttr with
      | some a => (Item.str it a).isSome
      | none => true)

/-- Whether an item of the index satisfies a key condition. -/
def KeyCondition.holds (ix : Index) (it : Item) : KeyCondition → Bool
  | .hashEq v => Item.str it ix.hashAttr == some v
  | .hashEqRangeEq v r => Item.str it ix.hashAttr == some v && ix.rangeOf it == r
  | .hashEqRangeBegins v p => Item.str it ix.hashAttr == some v && p.isPrefixOf (ix.rangeOf it)

/-- The items of an index that satisfy the key condition of a query, in index order:
ascending by sort key, reversed when `ScanIndexForward` is false. -/
def queryHits (table : List Item) (q : QueryInput) : List Item :=
  let hits := table.filter (fun it => q.index.lists it && q.cond.holds q.index it)
  let asc := hits.insertionSort (fun a b => bytesLE (q.index.rangeOf a) (q.index.rangeOf b) = true)
  if q.scanIndexForward then asc else asc.reverse

/-- The items a query reads: the hits in index order, cut at `Limit`. -/
def queryItems (table : List Item) (q : QueryInput) : List Item :=
  match q.limit with
  | some n => (queryHits table q).take n
  | none => queryHits table q

def Client.Query (c : Client) (q : QueryInput) : Except Error (List Item) × Client :=
  match c.call (.query q) with
  | (some e, c1) => (.error e, c1)
  | (none, c1) => (.ok (queryItems c1.table q), c1)

/-- Full upsert: the item replaces the one stored under the same primary key, if any. -/
def putInto (table : List Item) (item : Item) : List Item :=
  if table.any (fun it => it.key == item.key) then
    table.map (fun it => if it.key == item.key then item else it)
  else table ++ [item]

def Client.PutItem (c : Client) (item : Item) : Except Error Unit × Client :=
  match c.call (.putItem item) with
  | (some e, c1) => (.error e, c1)
  | (none, c1) =>
    if item.key.isSome then (.ok (), { c1 with table := putInto c1.table item })
    else (.error "ValidationException", c1)

/-- The effect of an update expression on one item. -/
def applyUpdate (u : UpdateItemInput) (it : Item) : Item :=
  u.removes.foldl Item.remove (u.sets.foldl (fun acc p => Item.set acc p.1 p.2) it)

/-- Partial update of the item under `u.key`; a missing item is created from the key. -/
def updateInto (table : List Item) (u : UpdateItemInput) : List Item :=
  if table.any (fun it => it.key == some u.key) then
    table.map (fun it => if it.key == some u.key then applyUpdate u it else it)
  else table ++ [applyUpdate u [("pk", .S u.key.pk), ("sk", .S u.key.sk)]]

def Client.UpdateItem (c : Client) (u : UpdateItemInput) : Except Error Unit × Client :=
  match c.call (.updateItem u) with
  | (some e, c1) => (.error e, c1)
  | (none, c1) => (.ok (), { c1 with table := updateInto c1.table u })

/-- Removal of the items stored under the given keys. -/
def deleteFrom (table : List Item) (deleteKeys : List Item) : List Item :=
  table.filter (fun it => !(deleteKeys.any (fun k => k.key == it.key)))

/-- Batch of delete requests: between 1 and 25 well-formed keys, each deleting the item
stored under it, if any. The service is taken to process every key of a batch it accepts:
it returns no `UnprocessedItems`, which the repository does not read. -/
def Client.BatchWriteItem (c : Client) (deleteKeys : List Item) : Except Error Unit × Client :=
  match c.call (.batchWriteItem deleteKeys) with
  | (some e, c1) => (.error e, c1)
  | (none, c1) =>
    if 1 ≤ deleteKeys.length ∧ deleteKeys.length ≤ 25 ∧
        deleteKeys.all (fun k => k.key.isSome) = true then
      (.ok (), { c1 with table := deleteFrom c1.table deleteKeys })
    else (.error "ValidationException", c1)

/-! ## repository.go -/

/-- Outcome of a call that returns a value, returns an error, or panics. -/
inductive Res (α : Type) where
  | ok (a : α)
  | error (e : Error)
  | panic

/-- The key `fmt.Sprintf("#USER#%s", username)`. -/
def userPK (username : GoString) : GoString := lit "#USER#" ++ username

/-- The key `fmt.Sprintf("#ORDER#%s", orderID)`. -/
def orderSK (orderID : GoString) : GoString := lit "#ORDER#" ++ orderID

/-- The key `fmt.Sprintf("#ITEM#%s", itemID)`. -/
def itemSK (itemID : GoString) : GoString := lit "#ITEM#" ++ itemID

/-- The text `fmt.Sprintf("%s#%s", status, date)`. -/
def statusDate (status : OrderStatus) (date : GoString) : GoString := status ++ lit "#" ++ date

/-- The delete key `{"pk": item["pk"], "sk": item["sk"]}` built by `EmptyTable`. -/
def deleteKeyOf (item : Item) : Item :=
  (match item.get "pk" with
    | some v => [("pk", v)]
    | none => [])
  ++ (match item.get "sk" with
    | some v => [("sk", v)]
    | none => [])

/-- The body of the page loop of `EmptyTable`: the items of one scanned page are deleted in
slices `page.Items[i:end]` of at most 25, from offset `i` on. -/
def EmptyTable.deletePage (items : List Item) (i : Nat) (c : Client) :
    Except Error Unit × Client :=
  if i < items.length then
    let stop := if i + 25 > items.length then items.length else i + 25
    let writeRequests := ((items.drop i).take (stop - i)).map deleteKeyOf
    if writeRequests.length > 0 then
      match c.BatchWriteItem writeRequests with
      | (.error e, c1) => (.error e, c1)
      | (.ok _, c1) => EmptyTable.deletePage items (i + 25) c1
    else EmptyTable.deletePage items (i + 25) c
  else (.ok (), c)
termination_by items.length - i

/-- The record `CreateUser` puts. -/
def userRecord (user : User) : Item :=
  let userMap := marshalUser user
  let userMap := Item.set userMap "pk" (.S (userPK user.Username))
  Item.set userMap "sk" (.S (lit "PROFILE"))

def CreateUser (c : Client) (user : User) : Except Error Unit × Client :=
  c.PutItem (userRecord user)

/-- The query of `GetUser`: `pk = :pk AND sk = :sk` on the table, `Limit` 1. -/
def userQuery (username : GoString) : QueryInput :=
  ⟨.primary, .hashEqRangeEq (userPK username) (lit "PROFILE"), some 1, true⟩

def GetUser (c : Client) (username : GoString) : Except Error User × Client :=
  match c.Query (userQuery username) with
  | (.error e, c1) => (.error e, c1)
  | (.ok [], c1) => (.error "user not found", c1)
  | (.ok (it :: _), c1) =>
    match unmarshalUser it with
    | .error e => (.error e, c1)
    | .ok user => (.ok { user with Username := username }, c1)

/-- The record `CreateOrder` puts. -/
def orderRecord (order : Order) : Item :=
  let orderMap := marshalOrder order
  let orderMap := Item.set orderMap "pk" (.S (userPK order.UserID))
  let orderMap := Item.set orderMap "sk" (.S (orderSK order.ID))
  let orderMap := Item.set orderMap "status_date"
    (.S (statusDate order.Status order.CreatedAt.formatDate))
  if order.Status = OrderStatusPending ∨ order.Status = OrderStatusConfirmed then
    Item.set orderMap "placed_id" (.S order.Status)
  else orderMap

def CreateOrder (c : Client) (order : Order) : Except Error Unit × Client :=
  c.PutItem (orderRecord order)

/-- The query of `GetOrderByID`: `sk = :sk` on `inverted-index`, `Limit` 1. -/
def orderQuery (orderID : GoString) : QueryInput :=
  ⟨.inverted, .hashEq (orderSK orderID), some 1, true⟩

def GetOrderByID (c : Client) (orderID : GoString) : Res Order × Client :=
  match c.Query (orderQuery orderID) with
  | (.error e, c1) => (.error e, c1)
  | (.ok [], c1) => (.error "order not found", c1)
  | (.ok (it :: _), c1) =>
    match unmarshalOrder it with
    | .error e => (.error e, c1)
    | .ok order =>
      match it.get "pk" with
      | some (.S pk) =>
        match goSliceFrom pk 6 with
        | none => (.panic, c1)
        | some userID => (.ok { order with UserID := userID, ID := orderID }, c1)
      | _ => (.ok { order with ID := orderID }, c1)

/-- The result loop of `GetOrdersByUserID`: items that fail to decode are skipped. -/
def GetOrdersByUserID.collect (userID : GoString) : List Item → List Order → Res (List Order)
  | [], orders => .ok orders
  | item :: rest, orders =>
    match unmarshalOrder item with
    | .error _ => GetOrdersByUserID.collect userID rest orders
    | .ok order =>
      match item.get "sk" with
      | some (.S sk) =>
        match goSliceFrom sk 7 with
        | none => .panic
        | some id =>
          GetOrdersByUserID.collect userID rest (orders ++ [{ order with UserID := userID, ID := id }])
      | _ => GetOrdersByUserID.collect userID rest (orders ++ [{ order with UserID := userID }])

/-- The query of `GetOrdersByUserID`: `pk = :pk AND begins_with(sk, :sk_prefix)` on the
table, `ScanIndexForward` false. -/
def userOrdersQuery (userID : GoString) : QueryInput :=
  ⟨.primary, .hashEqRangeBegins (userPK userID) (lit "#ORDER#"), none, false⟩

def GetOrdersByUserID (c : Client) (userID : GoString) : Res (List Order) × Client :=
  match c.Query (userOrdersQuery userID) with
  | (.error e, c1) => (.error e, c1)
  | (.ok items, c1) => (GetOrdersByUserID.collect userID items [], c1)

/-- The update `UpdateOrderStatus` issues for an order owned by `userID`; `now1` and `now2`
are the two readings of `time.Now()`. -/
def statusUpdate (userID orderID : GoString) (status : OrderStatus) (now1 now2 : Time) :
    UpdateItemInput :=
  let sets := [("status", AttributeValue.S status),
    ("status_date", .S (statusDate status now1.formatDate)),
    ("updated_at", .S now2.formatRFC3339)]
  if status = OrderStatusPending ∨ status = OrderStatusConfirmed then
    ⟨⟨userPK userID, orderSK orderID⟩, sets ++ [("placed_id", .S status)], []⟩
  else
    ⟨⟨userPK userID, orderSK orderID⟩, sets, ["placed_id"]⟩

def UpdateOrderStatus (c : Client) (orderID : GoString) (status : OrderStatus)
    (now1 now2 : Time) : Res Unit × Client :=
  match GetOrderByID c orderID with
  | (.error e, c1) => (.error e, c1)
  | (.panic, c1) => (.panic, c1)
  | (.ok order, c1) =>
    match c1.UpdateItem (statusUpdate order.UserID orderID status now1 now2) with
    | (.error e, c2) => (.error e, c2)
    | (.ok _, c2) => (.ok (), c2)

/-- The query of `GetPendingOrders`: index `placed-index`, `placed_id = "pending"`. -/
def pendingQuery : QueryInput := ⟨.placed, .hashEq OrderStatusPending, none, true⟩

def GetPendingOrders (c : Client) : Except Error (List Order) × Client :=
  match c.Query pendingQuery with
  | (.error e, c1) => (.error e, c1)
  | (.ok items, c1) =>
    (.ok (items.filterMap (fun item =>
      match unmarshalOrder item with
      | .error _ => none
      | .ok order => some order)), c1)

/-- The record `CreateOrderItem` puts. -/
def orderItemRecord (orderID : GoString) (item : OrderItem) : Item :=
  let itemMap := marshalOrderItem item
  let itemMap := Item.set itemMap "pk" (.S (orderSK orderID))
  Item.set itemMap "sk" (.S (itemSK item.ItemID))

def CreateOrderItem (c : Client) (orderID : GoString) (item : OrderItem) :
    Except Error Unit × Client :=
  c.PutItem (orderItemRecord orderID item)

/-! ## handlers.go -/

inductive Body where
  | text (msg : String)
  | user (u : User)
  | order (o : Order)
  deriving DecidableEq

/-- What a handler writes: the status code and the body. -/
structure Response where
  status : Nat
  body : Body
  deriving DecidableEq

def StatusOK : Nat := 200

def StatusBadRequest : Nat := 400

def StatusNotFound : Nat := 404

def StatusInternalServerError : Nat := 500

/-- Handler of `POST /users`; `body` is the decoded request body, `none` when the JSON
decoder fails. -/
def API.CreateUser (c : Client) (body : Option User) : Response × Client :=
  match body with
  | none => (⟨StatusBadRequest, .text "Invalid JSON"⟩, c)
  | some user =>
    if user.Username = [] then (⟨StatusBadRequest, .text "Username is required"⟩, c)
    else
      match Inventory.CreateUser c user with
      | (.error e, c1) => (⟨StatusInternalServerError, .text e⟩, c1)
      | (.ok _, c1) => (⟨StatusOK, .user user⟩, c1)

/-- Handler of `GET /users/{username}`. -/
def API.GetUser (c : Client) (username : GoString) : Response × Client :=
  match Inventory.GetUser c username with
  | (.error e, c1) => (⟨StatusNotFound, .text e⟩, c1)
  | (.ok user, c1) => (⟨StatusOK, .user user⟩, c1)

/-- The body of `POST /orders`. -/
structure CreateOrderRequest where
  UserID : GoString
  AddressKey : GoString
  deriving DecidableEq

/-- Handler of `POST /orders`; `id` is the text of `uuid.New()`, `now1` and `now2` the two
readings of `time.Now()`. -/
def API.CreateOrder (c : Client) (body : Option CreateOrderRequest) (id : GoString)
    (now1 now2 : Time) : Response × Client :=
  match body with
  | none => (⟨StatusBadRequest, .text "Invalid JSON"⟩, c)
  | some req =>
    if req.UserID = [] then (⟨StatusBadRequest, .text "user_id is required"⟩, c)
    else
      let order : Order := ⟨id, req.UserID, OrderStatusPending, req.AddressKey, now1, now2⟩
      match Inventory.CreateOrder c order with
      | (.error e, c1) => (⟨StatusInternalServerError, .text e⟩, c1)
      | (.ok _, c1) => (⟨StatusOK, .order order⟩, c1)

/-! ## Vocabulary of the statements -/

/-- The three kinds of record with their identifying fields. -/
inductive Entity where
  | account (username : GoString)
  | order (username orderID : GoString)
  | orderItem (orderID itemID : GoString)
  deriving DecidableEq

/-- The primary key under which `CreateUser`, `CreateOrder` and `CreateOrderItem` store an
entity. -/
def Entity.key : Entity → Key
  | .account username => ⟨userPK username, lit "PROFILE"⟩
  | .order username orderID => ⟨userPK username, orderSK orderID⟩
  | .orderItem orderID itemID => ⟨orderSK orderID, itemSK itemID⟩

/-- The next call of the client goes through: the service has no failure scripted for it. -/
def Client.healthy (c : Client) : Bool :=
  match c.faults with
  | some _ :: _ => false
  | _ => true

/-- The record after the update of `UpdateOrderStatus`, attribute by attribute. -/
def statusUpdated (it : Item) (status : OrderStatus) (now1 now2 : Time) : Item :=
  let base := Item.set (Item.set (Item.set it "status" (.S status))
    "status_date" (.S (statusDate status now1.formatDate))) "updated_at" (.S now2.formatRFC3339)
  if status = OrderStatusPending ∨ status = OrderStatusConfirmed then
    Item.set base "placed_id" (.S status)
  else Item.remove base "placed_id"

/-- The order id is borne by no other record of the table: a record under the sort key of
the order belongs to the same user, and a record that decodes to an order with this id is
stored under the key of the order. -/
def orderIDUnique (table : List Item) (userID orderID : GoString) : Prop :=
  ∀ it ∈ table,
    (Item.str it "sk" = some (orderSK orderID) → Item.str it "pk" = some (userPK userID)) ∧
    (∀ o, unmarshalOrder it = .ok o → o.ID = orderID →
      Item.key it = some (Entity.key (.order userID orderID)))

/-- The order `GetOrdersByUserID` builds from an item of its query: the decoded record with
the user of the request and the order id sliced from the sort key; nothing when the record
does not decode. -/
def GetOrdersByUserID.orderOf (userID : GoString) (it : Item) : Option Order :=
  match unmarshalOrder it with
  | .error _ => none
  | .ok o => some { o with UserID := userID, ID := ((Item.str it "sk").getD []).drop 7 }

/-- Newest first: every order is listed before the orders created no later. -/
def newestFirst (orders : List Order) : Prop :=
  orders.Pairwise (fun a b => b.CreatedAt.unixNano ≤ a.CreatedAt.unixNano)

/-- The records stored under the sort key of order `orderID` are order records: their
partition key is `"#USER#" + u` for some user `u`, and they decode. -/
def orderRecordsAt (table : List Item) (orderID : GoString) : Prop :=
  ∀ it ∈ table, Item.str it "sk" = some (orderSK orderID) →
    (∃ u, Item.str it "pk" = some (userPK u)) ∧ ∃ o, unmarshalOrder it = .ok o

/-- The attributes a status update sets or removes. -/
def statusAttributes : List String := ["status", "status_date", "updated_at", "placed_id"]

/-- The three operations that put records: `CreateUser`, `CreateOrder`, `CreateOrderItem`. -/
inductive Write where
  | createUser (user : User)
  | createOrder (order : Order)
  | createOrderItem (orderID : GoString) (item : OrderItem)

/-- The client after one write, whatever its outcome. -/
def Write.run (c : Client) : Write → Client
  | .createUser user => (CreateUser c user).2
  | .createOrder order => (CreateOrder c order).2
  | .createOrderItem orderID item => (CreateOrderItem c orderID item).2

/-- The client after a sequence of writes. -/
def runWrites (c : Client) (ws : List Write) : Client := ws.foldl Write.run c

/-- Every record of the table is stored under the key of an account, an order or an order
item. -/
def entityKeyed (table : List Item) : Prop :=
  ∀ it ∈ table, ∃ e : Entity, Item.key it = some (Entity.key e)

/-- A client with an empty table and a service that lets every call through. -/
def emptyClient : Client := ⟨[], [], []⟩

/-- A clock reading of January 1, in a zone eight hours east of UTC. -/
def jan1 : Time := ⟨lit "2024-01-01T09:00:00.123456789+08:00", by decide⟩

/-- A clock reading of January 2, in the same zone. -/
def jan2 : Time := ⟨lit "2024-01-02T06:43:18.5+08:00", by decide⟩

/-- An order of `alice`, pending, created on January 1. -/
def sampleOrder : Order := ⟨lit "o1", lit "alice", OrderStatusPending, lit "home", jan1, jan1⟩

/-- The client after `CreateOrder` of `sampleOrder` on the empty table. -/
def oneOrderClient : Client := (CreateOrder emptyClient sampleOrder).2

/-- An order of `alice` with id `b`, created on January 1. -/
def orderB : Order := ⟨lit "b", lit "alice", OrderStatusPending, lit "home", jan1, jan1⟩

/-- An order of `alice` with id `a`, created on January 2. -/
def orderA : Order := ⟨lit "a", lit "alice", OrderStatusPending, lit "home", jan2, jan2⟩

/-- The client after `orderB` is created on the empty table. -/
def orderBClient : Client := (CreateOrder emptyClient orderB).2

/-- The client after `orderB` and then `orderA` are created on the empty table. -/
def twoOrdersClient : Client := (CreateOrder (CreateOrder emptyClient orderB).2 orderA).2

/-- A scanned page of 26 order records, with the order ids `a` to `z`. -/
def page26 : List Item :=
  (List.range 26).map (fun n =>
    orderRecord ⟨[UInt8.ofNat (97 + n)], lit "alice", OrderStatusPending, lit "home", jan1, jan1⟩)

/-- A client whose table holds the 26 records of `page26` and the account of `alice`. -/
def page26Client : Client :=
  ⟨page26 ++ [userRecord ⟨lit "alice", lit "Alice", [], none⟩], [], []⟩

/-- A client whose service fails the next call. -/
def downClient : Client := ⟨[], [some "RequestError: send request failed"], []⟩

/-! ## Attribute maps -/

theorem lookup_cons_eq (k a : String) (b : AttributeValue) (rest : Item) (h : k = a) :
    List.lookup k ((a, b) :: rest) = some b := by
  have h2 : (k == a) = true := by simpa using h
  simp [List.lookup_cons, h2]

theorem lookup_cons_ne (k a : String) (b : AttributeValue) (rest : Item) (h : k ≠ a) :
    List.lookup k ((a, b) :: rest) = List.lookup k rest := by
  have h2 : (k == a) = false := by simpa using h
  simp [List.lookup_cons, h2]

theorem Item.get_remove_self (it : Item) (k : String) : Item.get (Item.remove it k) k = none := by
  induction it with
  | nil => rfl
  | cons p rest ih =>
    obtain ⟨a, b⟩ := p
    by_cases h : a = k
    · simpa [Item.get, Item.remove, List.filter_cons, h] using ih
    · have h2 : k ≠ a := fun e => h e.symm
      simp only [Item.get, Item.remove, List.filter_cons, bne_iff_ne, ne_eq, h, not_false_eq_true,
        decide_True, ite_true] at ih ⊢
      rw [lookup_cons_ne _ _ _ _ h2]
      exact ih

theorem Item.get_remove_ne (it : Item) (k j : String) (h : j ≠ k) :
    Item.get (Item.remove it k) j = Item.get it j := by
  induction it with
  | nil => rfl
  | cons p rest ih =>
    obtain ⟨a, b⟩ := p
    by_cases h1 : a = k
    · have h2 : j ≠ a := fun e => h (e.trans h1)
      simp only [Item.get, Item.remove, List.filter_cons, bne_iff_ne, ne_eq, h1,
        not_true_eq_false, decide_False, Bool.false_eq_true, ite_false] at ih ⊢
      rw [← h1, lookup_cons_ne _ _ _ _ h2]
      rw [← h1] at ih
      exact ih
    · simp only [Item.get, Item.remove, List.filter_cons, bne_iff_ne, ne_eq, h1,
        not_false_eq_true, decide_True, ite_true] at ih ⊢
      by_cases h3 : j = a
      · rw [lookup_cons_eq _ _ _ _ h3, lookup_cons_eq _ _ _ _ h3]
      · rw [lookup_cons_ne _ _ _ _ h3, lookup_cons_ne _ _ _ _ h3]
        exact ih

theorem lookup_append_of_none (l1 l2 : Item) (k : String) (h : List.lookup k l1 = none) :
    List.lookup k (l1 ++ l2) = List.lookup k l2 := by
  induction l1 with
  | nil => rfl
  | cons p rest ih =>
    obtain ⟨a, b⟩ := p
    by_cases h1 : k = a
    · rw [lookup_cons_eq _ _ _ _ h1] at h
      exact absurd h (by simp)
    · rw [lookup_cons_ne _ _ _ _ h1] at h
      rw [List.cons_append, lookup_cons_ne _ _ _ _ h1]
      exact ih h

theorem lookup_append_of_some (l1 l2 : Item) (k : String) (v : AttributeValue)
    (h : List.lookup k l1 = some v) : List.lookup k (l1 ++ l2) = some v := by
  induction l1 with
  | nil => simp at h
  | cons p rest ih =>
    obtain ⟨a, b⟩ := p
    by_cases h1 : k = a
    · rw [lookup_cons_eq _ _ _ _ h1] at h
      rw [List.cons_append, lookup_cons_eq _ _ _ _ h1]
      exact h
    · rw [lookup_cons_ne _ _ _ _ h1] at h
      rw [List.cons_append, lookup_cons_ne _ _ _ _ h1]
      exact ih h

theorem Item.get_set_self (it : Item) (k : String) (v : AttributeValue) :
    Item.get (Item.set it k v) k = some v := by
  have h := Item.get_remove_self it k
  unfold Item.get at h ⊢
  unfold Item.set
  rw [lookup_append_of_none _ _ _ h]
  exact lookup_cons_eq _ _ _ _ rfl

theorem Item.get_set_ne (it : Item) (k j : String) (v : AttributeValue) (h : j ≠ k) :
    Item.get (Item.set it k v) j = Item.get it j := by
  have h1 := Item.get_remove_ne it k j h
  unfold Item.get at h1 ⊢
  unfold Item.set
  cases hv : List.lookup j it with
  | none =>
    rw [hv] at h1
    rw [lookup_append_of_none _ _ _ h1, lookup_cons_ne _ _ _ _ h]
    rfl
  | some w =>
    rw [hv] at h1
    exact lookup_append_of_some _ _ _ _ h1

theorem Item.str_set_self (it : Item) (k : String) (v : GoString) :
    Item.str (Item.set it k (.S v)) k = some v := by
  simp [Item.str, Item.get_set_self]

theorem Item.str_set_ne (it : Item) (k j : String) (v : AttributeValue) (h : j ≠ k) :
    Item.str (Item.set it k v) j = Item.str it j := by
  simp [Item.str, Item.get_set_ne _ _ _ _ h]

theorem Item.key_set_ne (it : Item) (k : String) (v : AttributeValue) (h1 : "pk" ≠ k)
    (h2 : "sk" ≠ k) : Item.key (Item.set it k v) = Item.key it := by
  simp [Item.key, Item.str_set_ne _ _ _ _ h1, Item.str_set_ne _ _ _ _ h2]

theorem Item.key_set_pk_sk (it : Item) (p s : GoString) :
    Item.key (Item.set (Item.set it "pk" (.S p)) "sk" (.S s)) = some ⟨p, s⟩ := by
  have h1 : Item.str (Item.set (Item.set it "pk" (.S p)) "sk" (.S s)) "pk" = some p := by
    rw [Item.str_set_ne _ _ _ _ (by decide), Item.str_set_self]
  simp [Item.key, h1, Item.str_set_self]

theorem userRecord_key (user : User) :
    Item.key (userRecord user) = some (Entity.key (.account user.Username)) := by
  simp [userRecord, Entity.key, Item.key_set_pk_sk]

theorem orderRecord_key (order : Order) :
    Item.key (orderRecord order) = some (Entity.key (.order order.UserID order.ID)) := by
  unfold orderRecord
  simp only []
  split
  · rw [Item.key_set_ne _ _ _ (by decide) (by decide), Item.key_set_ne _ _ _ (by decide) (by decide),
      Item.key_set_pk_sk]
    rfl
  · rw [Item.key_set_ne _ _ _ (by decide) (by decide), Item.key_set_pk_sk]
    rfl

theorem orderItemRecord_key (orderID : GoString) (item : OrderItem) :
    Item.key (orderItemRecord orderID item) = some (Entity.key (.orderItem orderID item.ItemID)) := by
  simp [orderItemRecord, Entity.key, Item.key_set_pk_sk]

theorem Item.str_of_key (it : Item) (k : Key) (h : Item.key it = some k) :
    Item.str it "pk" = some k.pk ∧ Item.str it "sk" = some k.sk := by
  unfold Item.key at h
  split at h
  · next p q hp hq =>
    simp only [Option.some.injEq] at h
    rw [← h]
    exact ⟨hp, hq⟩
  · simp at h

theorem Item.get_of_str (it : Item) (name : String) (v : GoString)
    (h : Item.str it name = some v) : Item.get it name = some (.S v) := by
  unfold Item.str at h
  split at h
  · next w hw =>
    simp only [Option.some.injEq] at h
    rw [hw, h]
  · simp at h

/-! ## Key codec -/

theorem goSliceFrom_userPK (u : GoString) : goSliceFrom (userPK u) 6 = some u := by
  simp [goSliceFrom, userPK, lit]

theorem goSliceFrom_orderSK (o : GoString) : goSliceFrom (orderSK o) 7 = some o := by
  simp [goSliceFrom, orderSK, lit]

/-- C5: the key codec round trip. Slicing off the first 6 bytes of `"#USER#" + u`, as
`GetOrderByID` does, is in range and yields `u`; slicing off the first 7 bytes of
`"#ORDER#" + o`, as `GetOrdersByUserID` does, is in range and yields `o`. -/
theorem key_codec_round_trip (u o : GoString) :
    goSliceFrom (userPK u) 6 = some u ∧ goSliceFrom (orderSK o) 7 = some o :=
  ⟨goSliceFrom_userPK u, goSliceFrom_orderSK o⟩

/-- C6: the key encoding is collision-free. The records put by `CreateUser`, `CreateOrder`
and `CreateOrderItem` are stored under the keys `Entity.key`, and two entities have the same
`(pk, sk)` pair exactly when they are the same kind of entity with the same identifying
fields, whatever the identifier strings. -/
theorem key_encoding_collision_free :
    (∀ user : User, Item.key (userRecord user) = some (Entity.key (.account user.Username))) ∧
    (∀ order : Order,
      Item.key (orderRecord order) = some (Entity.key (.order order.UserID order.ID))) ∧
    (∀ (orderID : GoString) (item : OrderItem),
      Item.key (orderItemRecord orderID item)
        = some (Entity.key (.orderItem orderID item.ItemID))) ∧
    (∀ e1 e2 : Entity, Entity.key e1 = Entity.key e2 ↔ e1 = e2) := by
  refine ⟨userRecord_key, orderRecord_key, orderItemRecord_key, ?_⟩
  intro e1 e2
  constructor
  · intro h
    cases e1 <;> cases e2 <;>
      simp [Entity.key, userPK, orderSK, itemSK, lit, Key.mk.injEq] at h ⊢ <;>
      exact h
  · intro h
    rw [h]

/-! ## Calls and their outcomes -/

theorem Client.call_healthy (c : Client) (r : Request) (h : c.healthy = true) :
    c.call r = (none, { c with faults := c.faults.tail, log := c.log ++ [r] }) := by
  unfold Client.healthy at h
  unfold Client.call
  cases hf : c.faults with
  | nil => rfl
  | cons f rest =>
    cases f with
    | none => rfl
    | some e => simp [hf] at h

theorem Client.call_fault (c : Client) (r : Request) (e : Error) (rest : List (Option Error))
    (h : c.faults = some e :: rest) :
    c.call r = (some e, { c with faults := rest, log := c.log ++ [r] }) := by
  unfold Client.call
  rw [h]
  rfl

theorem Client.Query_healthy (c : Client) (q : QueryInput) (h : c.healthy = true) :
    c.Query q = (.ok (queryItems c.table q),
      { c with faults := c.faults.tail, log := c.log ++ [.query q] }) := by
  unfold Client.Query
  rw [Client.call_healthy c _ h]

theorem Client.Query_fault (c : Client) (q : QueryInput) (e : Error)
    (rest : List (Option Error)) (h : c.faults = some e :: rest) :
    c.Query q = (.error e, { c with faults := rest, log := c.log ++ [.query q] }) := by
  unfold Client.Query
  rw [Client.call_fault c _ e rest h]

theorem mem_queryHits (table : List Item) (q : QueryInput) (it : Item) :
    it ∈ queryHits table q ↔
      it ∈ table ∧ q.index.lists it = true ∧ q.cond.holds q.index it = true := by
  unfold queryHits
  simp only []
  split <;>
    simp [(List.perm_insertionSort _ _).mem_iff, List.mem_filter, Bool.and_eq_true]

/-- Membership in the result of a query without `Limit`. -/
theorem mem_queryItems (table : List Item) (q : QueryInput) (h : q.limit = none) (it : Item) :
    it ∈ queryItems table q ↔
      it ∈ table ∧ q.index.lists it = true ∧ q.cond.holds q.index it = true := by
  unfold queryItems
  rw [h]
  exact mem_queryHits table q it

/-- A query reads nothing but items of the table that satisfy its key condition. -/
theorem queryItems_subset (table : List Item) (q : QueryInput) (it : Item)
    (h : it ∈ queryItems table q) :
    it ∈ table ∧ q.index.lists it = true ∧ q.cond.holds q.index it = true := by
  unfold queryItems at h
  cases hq : q.limit with
  | none =>
    rw [hq] at h
    exact (mem_queryHits table q it).mp h
  | some n =>
    rw [hq] at h
    exact (mem_queryHits table q it).mp (List.mem_of_mem_take h)

/-- A query whose key condition no item of the table satisfies reads nothing. -/
theorem queryItems_eq_nil (table : List Item) (q : QueryInput)
    (h : ∀ it ∈ table, (q.index.lists it && q.cond.holds q.index it) = false) :
    queryItems table q = [] := by
  have hn : ∀ it, it ∉ queryItems table q := by
    intro it hit
    obtain ⟨h1, h2, h3⟩ := queryItems_subset table q it hit
    have := h it h1
    simp [h2, h3] at this
  exact List.eq_nil_iff_forall_not_mem.mpr hn

theorem Client.healthy_or_fault (c : Client) :
    c.healthy = true ∨ ∃ e rest, c.faults = some e :: rest := by
  unfold Client.healthy
  cases hf : c.faults with
  | nil => exact Or.inl rfl
  | cons f rest =>
    cases f with
    | none => exact Or.inl rfl
    | some e => exact Or.inr ⟨e, rest, rfl⟩

theorem Client.UpdateItem_healthy (c : Client) (u : UpdateItemInput) (h : c.healthy = true) :
    c.UpdateItem u = (.ok (),
      { table := updateInto c.table u, faults := c.faults.tail,
        log := c.log ++ [.updateItem u] }) := by
  unfold Client.UpdateItem
  rw [Client.call_healthy c _ h]

theorem Client.UpdateItem_fault (c : Client) (u : UpdateItemInput) (e : Error)
    (rest : List (Option Error)) (h : c.faults = some e :: rest) :
    c.UpdateItem u = (.error e, { c with faults := rest, log := c.log ++ [.updateItem u] }) := by
  unfold Client.UpdateItem
  rw [Client.call_fault c _ e rest h]

/-- The query of `GetOrderByID`. -/
theorem GetOrderByID_ok (c c1 : Client) (orderID : GoString) (order : Order)
    (h : GetOrderByID c orderID = (.ok order, c1)) :
    c.healthy = true ∧
    c1 = { c with faults := c.faults.tail,
                  log := c.log ++ [.query (orderQuery orderID)] } ∧
    ∃ it ∈ c.table, Item.str it "sk" = some (orderSK orderID) ∧
      ∃ pk, Item.str it "pk" = some pk ∧ goSliceFrom pk 6 = some order.UserID := by
  rcases Client.healthy_or_fault c with hc | ⟨e, rest, hf⟩
  · refine ⟨hc, ?_⟩
    unfold GetOrderByID at h
    rw [Client.Query_healthy c _ hc] at h
    cases hq : queryItems c.table (orderQuery orderID) with
    | nil => simp [hq] at h
    | cons it tl =>
      have hmem := queryItems_subset c.table _ it (by rw [hq]; exact List.mem_cons_self _ _)
      obtain ⟨hit, hl, hh⟩ := hmem
      simp only [orderQuery, Index.lists, Index.hashAttr, Index.rangeAttr, Bool.and_eq_true,
        KeyCondition.holds, beq_iff_eq] at hl hh
      simp only [hq] at h
      cases hu : unmarshalOrder it with
      | error e => simp [hu] at h
      | ok o =>
        simp only [hu] at h
        cases hpk : Item.str it "pk" with
        | none => simp [hpk] at hl
        | some pk =>
          have hget : Item.get it "pk" = some (.S pk) := by
            unfold Item.str at hpk
            split at hpk
            · next v hv => simp at hpk; rw [hv, hpk]
            · simp at hpk
          simp only [hget] at h
          cases hs : goSliceFrom pk 6 with
          | none => simp [hs] at h
          | some userID =>
            simp only [hs, Prod.mk.injEq, Res.ok.injEq] at h
            refine ⟨h.2.symm, it, hit, hh, pk, hpk, ?_⟩
            rw [← h.1]
            exact hs
  · unfold GetOrderByID at h
    rw [Client.Query_fault c _ e rest hf] at h
    simp at h

/-- A successful `UpdateOrderStatus`: the owner is sliced from the partition key of a record
whose sort key is that of the order, and the table becomes the old one with the one status
update applied. -/
theorem UpdateOrderStatus_ok (c c2 : Client) (orderID : GoString) (status : OrderStatus)
    (now1 now2 : Time) (h : UpdateOrderStatus c orderID status now1 now2 = (.ok (), c2)) :
    ∃ userID,
      (∃ it ∈ c.table, Item.str it "sk" = some (orderSK orderID) ∧
        ∃ pk, Item.str it "pk" = some pk ∧ goSliceFrom pk 6 = some userID) ∧
      c2.table = updateInto c.table (statusUpdate userID orderID status now1 now2) := by
  unfold UpdateOrderStatus at h
  cases hg : GetOrderByID c orderID with
  | mk r c1 =>
    rw [hg] at h
    cases r with
    | error e => simp at h
    | panic => simp at h
    | ok order =>
      obtain ⟨_, hc1, hit⟩ := GetOrderByID_ok c c1 orderID order hg
      refine ⟨order.UserID, hit, ?_⟩
      simp only [] at h
      rcases Client.healthy_or_fault c1 with hh | ⟨e, rest, hf⟩
      · rw [Client.UpdateItem_healthy c1 _ hh] at h
        simp only [Prod.mk.injEq, true_and] at h
        rw [← h, hc1]
      · rw [Client.UpdateItem_fault c1 _ e rest hf] at h
        simp at h

/-! ## The status update on one record -/

theorem applyUpdate_statusUpdate (userID orderID : GoString) (status : OrderStatus)
    (now1 now2 : Time) (it : Item) :
    applyUpdate (statusUpdate userID orderID status now1 now2) it
      = statusUpdated it status now1 now2 := by
  unfold statusUpdate statusUpdated applyUpdate
  split <;> simp [List.foldl]

theorem Item.key_remove_ne (it : Item) (k : String) (h1 : "pk" ≠ k) (h2 : "sk" ≠ k) :
    Item.key (Item.remove it k) = Item.key it := by
  simp [Item.key, Item.str, Item.get_remove_ne _ _ _ h1, Item.get_remove_ne _ _ _ h2]

theorem statusUpdated_key (it : Item) (status : OrderStatus) (now1 now2 : Time) :
    Item.key (statusUpdated it status now1 now2) = Item.key it := by
  unfold statusUpdated
  simp only []
  split
  · rw [Item.key_set_ne _ _ _ (by decide) (by decide), Item.key_set_ne _ _ _ (by decide) (by decide),
      Item.key_set_ne _ _ _ (by decide) (by decide), Item.key_set_ne _ _ _ (by decide) (by decide)]
  · rw [Item.key_remove_ne _ _ (by decide) (by decide),
      Item.key_set_ne _ _ _ (by decide) (by decide), Item.key_set_ne _ _ _ (by decide) (by decide),
      Item.key_set_ne _ _ _ (by decide) (by decide)]

theorem statusUpdated_placed_id (it : Item) (status : OrderStatus) (now1 now2 : Time) :
    (status = OrderStatusPending ∨ status = OrderStatusConfirmed →
      Item.get (statusUpdated it status now1 now2) "placed_id" = some (.S status)) ∧
    (¬ (status = OrderStatusPending ∨ status = OrderStatusConfirmed) →
      Item.get (statusUpdated it status now1 now2) "placed_id" = none) := by
  unfold statusUpdated
  constructor
  · intro h
    simp only [h, if_true]
    exact Item.get_set_self _ _ _
  · intro h
    simp only [h, if_false]
    exact Item.get_remove_self _ _

theorem statusUpdated_status (it : Item) (status : OrderStatus) (now1 now2 : Time) :
    Item.get (statusUpdated it status now1 now2) "status" = some (.S status) ∧
    Item.get (statusUpdated it status now1 now2) "status_date"
      = some (.S (statusDate status now1.formatDate)) := by
  unfold statusUpdated
  simp only []
  split
  · constructor
    · rw [Item.get_set_ne _ _ _ _ (by decide), Item.get_set_ne _ _ _ _ (by decide),
        Item.get_set_ne _ _ _ _ (by decide), Item.get_set_self]
    · rw [Item.get_set_ne _ _ _ _ (by decide), Item.get_set_ne _ _ _ _ (by decide),
        Item.get_set_self]
  · constructor
    · rw [Item.get_remove_ne _ _ _ (by decide), Item.get_set_ne _ _ _ _ (by decide),
        Item.get_set_ne _ _ _ _ (by decide), Item.get_set_self]
    · rw [Item.get_remove_ne _ _ _ (by decide), Item.get_set_ne _ _ _ _ (by decide),
        Item.get_set_self]

/-! ## Writes on the table -/

theorem mem_putInto_self (table : List Item) (item : Item) : item ∈ putInto table item := by
  unfold putInto
  split
  · next h =>
    obtain ⟨it, hit, hk⟩ := List.any_eq_true.mp h
    exact List.mem_map.mpr ⟨it, hit, by simp [hk]⟩
  · simp

theorem mem_putInto (table : List Item) (item it : Item) (h : it ∈ putInto table item) :
    it = item ∨ (it ∈ table ∧ Item.key it ≠ Item.key item) := by
  unfold putInto at h
  split at h
  · obtain ⟨x, hx, hxe⟩ := List.mem_map.mp h
    by_cases hk : Item.key x = Item.key item
    · simp [hk] at hxe
      exact Or.inl hxe.symm
    · have hk2 : (Item.key x == Item.key item) = false := by simpa using hk
      simp only [hk2, Bool.false_eq_true, if_false] at hxe
      rw [← hxe]
      exact Or.inr ⟨hx, hk⟩
  · next hany =>
    rcases List.mem_append.mp h with h1 | h1
    · refine Or.inr ⟨h1, fun hk => hany ?_⟩
      exact List.any_eq_true.mpr ⟨it, h1, by simp [hk]⟩
    · exact Or.inl (by simpa using h1)

/-- An item of the updated table is an untouched item stored under another key, or an
updated one. -/
theorem mem_updateInto (table : List Item) (u : UpdateItemInput) (it : Item)
    (h : it ∈ updateInto table u) :
    (it ∈ table ∧ Item.key it ≠ some u.key) ∨ ∃ it0, it = applyUpdate u it0 := by
  unfold updateInto at h
  split at h
  · obtain ⟨x, hx, hxe⟩ := List.mem_map.mp h
    by_cases hk : Item.key x = some u.key
    · simp [hk] at hxe
      exact Or.inr ⟨x, hxe.symm⟩
    · have hk2 : (Item.key x == some u.key) = false := by simpa using hk
      simp only [hk2, Bool.false_eq_true, if_false] at hxe
      rw [← hxe]
      exact Or.inl ⟨hx, hk⟩
  · next hany =>
    rcases List.mem_append.mp h with h1 | h1
    · refine Or.inl ⟨h1, fun hk => hany ?_⟩
      exact List.any_eq_true.mpr ⟨it, h1, by simp [hk]⟩
    · exact Or.inr ⟨_, by simpa using h1⟩

/-- The updated table holds an updated item; it is stored under the key of the update when
the update leaves the key attributes alone. -/
theorem updateInto_exists (table : List Item) (u : UpdateItemInput)
    (hkey : ∀ it, Item.key (applyUpdate u it) = Item.key it) :
    ∃ it ∈ updateInto table u, Item.key it = some u.key := by
  unfold updateInto
  split
  · next h =>
    obtain ⟨x, hx, hk⟩ := List.any_eq_true.mp h
    refine ⟨applyUpdate u x, List.mem_map.mpr ⟨x, hx, by simp [hk]⟩, ?_⟩
    rw [hkey]
    simpa using hk
  · refine ⟨_, List.mem_append.mpr (Or.inr (List.mem_singleton.mpr rfl)), ?_⟩
    rw [hkey]
    rfl

theorem Client.PutItem_ok (c c1 : Client) (item : Item) (h : c.PutItem item = (.ok (), c1)) :
    c1.table = putInto c.table item := by
  unfold Client.PutItem at h
  rcases Client.healthy_or_fault c with hh | ⟨e, rest, hf⟩
  · rw [Client.call_healthy c _ hh] at h
    simp only [] at h
    split at h
    · simp only [Prod.mk.injEq, true_and] at h
      rw [← h]
    · simp at h
  · rw [Client.call_fault c _ e rest hf] at h
    simp at h

theorem Item.entries_set_self (it : Item) (k : String) (v : AttributeValue) :
    (Item.set it k v).filter (fun p => p.1 == k) = [(k, v)] := by
  simp [Item.set, Item.remove, List.filter_append, List.filter_filter]

theorem Item.entries_set_ne (it : Item) (k j : String) (v : AttributeValue) (h : j ≠ k) :
    (Item.set it k v).filter (fun p => p.1 == j) = it.filter (fun p => p.1 == j) := by
  have h2 : ¬ k = j := fun e => h e.symm
  simp [Item.set, Item.remove, List.filter_append, List.filter_filter, h2]
  apply List.filter_congr
  intro p _
  by_cases hp : p.1 = j
  · simp [hp, h]
  · simp [hp]

theorem Item.entries_remove_ne (it : Item) (k j : String) (h : j ≠ k) :
    (Item.remove it k).filter (fun p => p.1 == j) = it.filter (fun p => p.1 == j) := by
  simp [Item.remove, List.filter_filter]
  apply List.filter_congr
  intro p _
  by_cases hp : p.1 = j
  · simp [hp, h]
  · simp [hp]

theorem statusUpdated_status_date_entries (it : Item) (status : OrderStatus) (now1 now2 : Time) :
    (statusUpdated it status now1 now2).filter (fun p => p.1 == "status_date")
      = [("status_date", .S (statusDate status now1.formatDate))] := by
  unfold statusUpdated
  simp only []
  split
  · rw [Item.entries_set_ne _ _ _ _ (by decide), Item.entries_set_ne _ _ _ _ (by decide),
      Item.entries_set_self]
  · rw [Item.entries_remove_ne _ _ _ (by decide), Item.entries_set_ne _ _ _ _ (by decide),
      Item.entries_set_self]

/-- The text of a time begins with its date: four digits of year, a hyphen, two digits of
month, a hyphen, two digits of day, then `T`. -/
theorem Time.val_shape (t : Time) :
    ∃ (y1 y2 y3 y4 m1 m2 d1 d2 : UInt8) (clock : GoString),
      t.val = [y1, y2, y3, y4, 45, m1, m2, 45, d1, d2, 84] ++ clock ∧
      [y1, y2, y3, y4, m1, m2, d1, d2].all isDigit = true := by
  obtain ⟨v, hv⟩ := t
  match v, hv with
  | y1 :: y2 :: y3 :: y4 :: h1 :: m1 :: m2 :: h2 :: d1 :: d2 :: t :: rest, hv =>
    simp only [parseRFC3339] at hv
    split at hv
    · next hc =>
      split at hv
      · next clock hclock =>
        simp only [Option.some.injEq, List.cons_append, List.nil_append, List.cons.injEq] at hv
        obtain ⟨-, -, -, -, e1, -, -, e2, -, -, e3, e4⟩ := hv
        refine ⟨y1, y2, y3, y4, m1, m2, d1, d2, rest, ?_, hc.1⟩
        simp [← e1, ← e2, ← e3]
      · simp at hv
    · simp at hv
  | [], hv => simp [parseRFC3339] at hv
  | [_], hv => simp [parseRFC3339] at hv
  | [_, _], hv => simp [parseRFC3339] at hv
  | [_, _, _], hv => simp [parseRFC3339] at hv
  | [_, _, _, _], hv => simp [parseRFC3339] at hv
  | [_, _, _, _, _], hv => simp [parseRFC3339] at hv
  | [_, _, _, _, _, _], hv => simp [parseRFC3339] at hv
  | [_, _, _, _, _, _, _], hv => simp [parseRFC3339] at hv
  | [_, _, _, _, _, _, _, _], hv => simp [parseRFC3339] at hv
  | [_, _, _, _, _, _, _, _, _], hv => simp [parseRFC3339] at hv
  | [_, _, _, _, _, _, _, _, _, _], hv => simp [parseRFC3339] at hv

theorem timeOfText_val (t : Time) : timeOfText t.val = .ok t := by
  unfold timeOfText
  rw [dif_pos t.property]

theorem decodeTime_val (t : Time) : decodeTime (some (.S t.val)) = .ok t := by
  unfold decodeTime
  simp only [t.property]
  exact timeOfText_val t

theorem Client.healthy_of_faults (c : Client) (h : ∀ f ∈ c.faults, f = none) :
    c.healthy = true := by
  rcases Client.healthy_or_fault c with hh | ⟨e, rest, he⟩
  · exact hh
  · have := h (some e) (by rw [he]; exact List.mem_cons_self _ _)
    simp at this

theorem Item.key_of_str (it : Item) (p q : GoString) (hp : Item.str it "pk" = some p)
    (hq : Item.str it "sk" = some q) : Item.key it = some ⟨p, q⟩ := by
  simp [Item.key, hp, hq]

/-- The status update leaves every attribute other than the four it names as it finds it. -/
theorem statusUpdated_get_other (it : Item) (status : OrderStatus) (now1 now2 : Time)
    (name : String) (h : name ∉ statusAttributes) :
    Item.get (statusUpdated it status now1 now2) name = Item.get it name := by
  simp only [statusAttributes, List.mem_cons, List.mem_singleton, List.not_mem_nil,
    or_false, not_or] at h
  obtain ⟨h1, h2, h3, h4⟩ := h
  unfold statusUpdated
  simp only []
  split
  · rw [Item.get_set_ne _ _ _ _ h4, Item.get_set_ne _ _ _ _ h3, Item.get_set_ne _ _ _ _ h2,
      Item.get_set_ne _ _ _ _ h1]
  · rw [Item.get_remove_ne _ _ _ h4, Item.get_set_ne _ _ _ _ h3, Item.get_set_ne _ _ _ _ h2,
      Item.get_set_ne _ _ _ _ h1]

theorem statusUpdate_key (userID orderID : GoString) (status : OrderStatus)
    (now1 now2 : Time) :
    (statusUpdate userID orderID status now1 now2).key = ⟨userPK userID, orderSK orderID⟩ := by
  unfold statusUpdate
  split <;> rfl

theorem statusUpdate_names (userID orderID : GoString) (status : OrderStatus)
    (now1 now2 : Time) :
    ∀ n ∈ (statusUpdate userID orderID status now1 now2).sets.map Prod.fst
        ++ (statusUpdate userID orderID status now1 now2).removes,
      n ∈ statusAttributes := by
  unfold statusUpdate statusAttributes
  split <;> simp

/-- The lookup of `GetOrderByID` on a table whose records under the sort key of the order
are order records, one of them at least: it returns, with the owner sliced from the
partition key of a record of the table. -/
theorem GetOrderByID_found (c : Client) (orderID : GoString) (hc : c.healthy = true)
    (hexists : ∃ it ∈ c.table, Item.str it "sk" = some (orderSK orderID))
    (hwf : orderRecordsAt c.table orderID) :
    ∃ owner order,
      (∃ it ∈ c.table, Item.key it = some ⟨userPK owner, orderSK orderID⟩) ∧
      order.UserID = owner ∧
      GetOrderByID c orderID = (.ok order,
        { c with faults := c.faults.tail, log := c.log ++ [.query (orderQuery orderID)] }) := by
  obtain ⟨it0, hit0, hsk0⟩ := hexists
  obtain ⟨⟨u0, hpk0⟩, _⟩ := hwf it0 hit0 hsk0
  have hmem0 : it0 ∈ queryHits c.table (orderQuery orderID) := by
    rw [mem_queryHits]
    refine ⟨hit0, ?_, ?_⟩
    · simp [orderQuery, Index.lists, Index.hashAttr, Index.rangeAttr, hsk0, hpk0]
    · simp [orderQuery, KeyCondition.holds, Index.hashAttr, hsk0]
  cases hh : queryHits c.table (orderQuery orderID) with
  | nil => rw [hh] at hmem0; exact absurd hmem0 (List.not_mem_nil _)
  | cons hd tl =>
    have hq : queryItems c.table (orderQuery orderID) = [hd] := by
      show (queryHits c.table (orderQuery orderID)).take 1 = [hd]
      rw [hh]
      rfl
    obtain ⟨hhd, _, hhold⟩ :=
      (mem_queryHits c.table (orderQuery orderID) hd).mp (by rw [hh]; exact List.mem_cons_self _ _)
    have hsk : Item.str hd "sk" = some (orderSK orderID) := by
      simpa [orderQuery, KeyCondition.holds, Index.hashAttr] using hhold
    obtain ⟨⟨u, hpk⟩, o, hu⟩ := hwf hd hhd hsk
    refine ⟨u, { o with UserID := u, ID := orderID }, ⟨hd, hhd, Item.key_of_str hd _ _ hpk hsk⟩,
      rfl, ?_⟩
    unfold GetOrderByID
    rw [Client.Query_healthy c _ hc, hq]
    simp only [hu, Item.get_of_str hd "pk" _ hpk, goSliceFrom_userPK]

/-- The run of `UpdateOrderStatus` on a table where the records under the sort key of the
order are order records, one of them at least, with a service that fails no call: the
result, the table, the scripted outcomes left and the log. -/
theorem UpdateOrderStatus_runs (c : Client) (orderID : GoString) (status : OrderStatus)
    (now1 now2 : Time) (hfaults : ∀ f ∈ c.faults, f = none)
    (hexists : ∃ it ∈ c.table, Item.str it "sk" = some (orderSK orderID))
    (hwf : orderRecordsAt c.table orderID) :
    ∃ owner,
      (∃ it ∈ c.table, Item.key it = some ⟨userPK owner, orderSK orderID⟩) ∧
      UpdateOrderStatus c orderID status now1 now2 = (.ok (),
        { table := c.table.map (fun it =>
            if Item.key it = some ⟨userPK owner, orderSK orderID⟩ then
              statusUpdated it status now1 now2
            else it),
          faults := c.faults.tail.tail,
          log := c.log ++ [.query (orderQuery orderID),
            .updateItem (statusUpdate owner orderID status now1 now2)] }) := by
  have hc : c.healthy = true := Client.healthy_of_faults c hfaults
  obtain ⟨owner, order, hrec, hown, hg⟩ := GetOrderByID_found c orderID hc hexists hwf
  have hc1 : Client.healthy
      { c with faults := c.faults.tail, log := c.log ++ [.query (orderQuery orderID)] }
        = true :=
    Client.healthy_of_faults _ (fun f hf => hfaults f (List.mem_of_mem_tail hf))
  have hk := statusUpdate_key owner orderID status now1 now2
  have htable : updateInto c.table (statusUpdate owner orderID status now1 now2)
      = c.table.map (fun it =>
          if Item.key it = some ⟨userPK owner, orderSK orderID⟩ then
            statusUpdated it status now1 now2
          else it) := by
    obtain ⟨it, hit, hkey⟩ := hrec
    unfold updateInto
    have hany : c.table.any
        (fun it => Item.key it == some (statusUpdate owner orderID status now1 now2).key)
          = true :=
      List.any_eq_true.mpr ⟨it, hit, by rw [hk]; simp [hkey]⟩
    rw [if_pos hany]
    apply List.map_congr_left
    intro x _
    rw [hk]
    by_cases hx : Item.key x = some ⟨userPK owner, orderSK orderID⟩
    · simp [hx, applyUpdate_statusUpdate]
    · simp [hx]
  refine ⟨owner, hrec, ?_⟩
  unfold UpdateOrderStatus
  rw [hg]
  simp only [hown]
  rw [Client.UpdateItem_healthy _ _ hc1]
  simp only [htable, List.append_assoc, List.singleton_append]

/-- The records of a status-mapped table under the key of the update are the status-updated
records of the old table under that key. -/
theorem mem_statusMapped (table : List Item) (k : Key) (status : OrderStatus)
    (now1 now2 : Time) (it2 : Item)
    (h : it2 ∈ table.map (fun it =>
      if Item.key it = some k then statusUpdated it status now1 now2 else it))
    (hk : Item.key it2 = some k) :
    ∃ it ∈ table, Item.key it = some k ∧ it2 = statusUpdated it status now1 now2 := by
  obtain ⟨it, hit, he⟩ := List.mem_map.mp h
  by_cases hx : Item.key it = some k
  · rw [if_pos hx] at he
    exact ⟨it, hit, hx, he.symm⟩
  · rw [if_neg hx] at he
    rw [← he] at hk
    exact absurd hk hx

/-- What the run of `UpdateOrderStatus` leaves: the call returns without error, the table is
the old one with the records of the order status-updated, and the records then stored under
the key of the order are the status-updated records of the order, one at least. -/
theorem UpdateOrderStatus_updated (c : Client) (orderID : GoString) (status : OrderStatus)
    (now1 now2 : Time) (hfaults : ∀ f ∈ c.faults, f = none)
    (hexists : ∃ it ∈ c.table, Item.str it "sk" = some (orderSK orderID))
    (hwf : orderRecordsAt c.table orderID) :
    ∃ owner,
      (∃ it ∈ c.table, Item.key it = some ⟨userPK owner, orderSK orderID⟩) ∧
      (UpdateOrderStatus c orderID status now1 now2).1 = .ok () ∧
      (UpdateOrderStatus c orderID status now1 now2).2.table
        = c.table.map (fun it =>
            if Item.key it = some ⟨userPK owner, orderSK orderID⟩ then
              statusUpdated it status now1 now2
            else it) ∧
      (∃ it ∈ (UpdateOrderStatus c orderID status now1 now2).2.table,
        Item.key it = some ⟨userPK owner, orderSK orderID⟩) ∧
      ∀ it2 ∈ (UpdateOrderStatus c orderID status now1 now2).2.table,
        Item.key it2 = some ⟨userPK owner, orderSK orderID⟩ →
        ∃ it ∈ c.table, Item.key it = some ⟨userPK owner, orderSK orderID⟩ ∧
          it2 = statusUpdated it status now1 now2 := by
  obtain ⟨owner, hrec, hrun⟩ :=
    UpdateOrderStatus_runs c orderID status now1 now2 hfaults hexists hwf
  refine ⟨owner, hrec, by rw [hrun], by rw [hrun], ?_, ?_⟩
  · obtain ⟨it, hit, hkey⟩ := hrec
    rw [hrun]
    refine ⟨statusUpdated it status now1 now2, ?_, by rw [statusUpdated_key]; exact hkey⟩
    exact List.mem_map.mpr ⟨it, hit, by rw [if_pos hkey]⟩
  · intro it2 hit2 hk2
    rw [hrun] at hit2
    exact mem_statusMapped c.table _ status now1 now2 it2 hit2 hk2

theorem orderRecord_get (order : Order) (name : String) (h1 : name ≠ "pk") (h2 : name ≠ "sk")
    (h3 : name ≠ "status_date") (h4 : name ≠ "placed_id") :
    Item.get (orderRecord order) name = Item.get (marshalOrder order) name := by
  unfold orderRecord
  simp only []
  split
  · rw [Item.get_set_ne _ _ _ _ h4, Item.get_set_ne _ _ _ _ h3, Item.get_set_ne _ _ _ _ h2,
      Item.get_set_ne _ _ _ _ h1]
  · rw [Item.get_set_ne _ _ _ _ h3, Item.get_set_ne _ _ _ _ h2, Item.get_set_ne _ _ _ _ h1]

/-- Decoding the record that `CreateOrder` writes gives the order back. -/
theorem unmarshalOrder_orderRecord (order : Order) :
    unmarshalOrder (orderRecord order) = .ok order := by
  have e1 : Item.get (orderRecord order) "order_id" = some (.S order.ID) := by
    rw [orderRecord_get _ _ (by decide) (by decide) (by decide) (by decide)]; rfl
  have e2 : Item.get (orderRecord order) "user_id" = some (.S order.UserID) := by
    rw [orderRecord_get _ _ (by decide) (by decide) (by decide) (by decide)]; rfl
  have e3 : Item.get (orderRecord order) "status" = some (.S order.Status) := by
    rw [orderRecord_get _ _ (by decide) (by decide) (by decide) (by decide)]; rfl
  have e4 : Item.get (orderRecord order) "address_key" = some (.S order.AddressKey) := by
    rw [orderRecord_get _ _ (by decide) (by decide) (by decide) (by decide)]; rfl
  have e5 : Item.get (orderRecord order) "created_at" = some (.S order.CreatedAt.val) := by
    rw [orderRecord_get _ _ (by decide) (by decide) (by decide) (by decide)]; rfl
  have e6 : Item.get (orderRecord order) "updated_at" = some (.S order.UpdatedAt.val) := by
    rw [orderRecord_get _ _ (by decide) (by decide) (by decide) (by decide)]; rfl
  have t1 : decodeTime (some (.S order.CreatedAt.val)) = .ok order.CreatedAt :=
    decodeTime_val order.CreatedAt
  have t2 : decodeTime (some (.S order.UpdatedAt.val)) = .ok order.UpdatedAt :=
    decodeTime_val order.UpdatedAt
  unfold unmarshalOrder
  rw [e1, e2, e3, e4, e5, e6, t1, t2]
  rfl

theorem orderRecord_placed_pending (order : Order) (h : order.Status = OrderStatusPending) :
    Item.str (orderRecord order) "placed_id" = some OrderStatusPending := by
  unfold orderRecord
  simp only [h, true_or, if_true]
  exact Item.str_set_self _ _ _

/-- The table of `oneOrderClient` holds the record of `sampleOrder`. -/
theorem oneOrderClient_table : oneOrderClient.table = [orderRecord sampleOrder] := rfl

theorem oneOrderClient_has_order :
    ∃ it ∈ oneOrderClient.table, Item.str it "sk" = some (orderSK (lit "o1")) :=
  ⟨orderRecord sampleOrder, by rw [oneOrderClient_table]; exact List.mem_singleton.mpr rfl,
    (Item.str_of_key _ _ (orderRecord_key sampleOrder)).2⟩

theorem orderRecord_isOrderRecord (order : Order) :
    (∃ u, Item.str (orderRecord order) "pk" = some (userPK u)) ∧
      ∃ o, unmarshalOrder (orderRecord order) = .ok o :=
  ⟨⟨order.UserID, (Item.str_of_key _ _ (orderRecord_key order)).1⟩, order,
    unmarshalOrder_orderRecord order⟩

theorem oneOrderClient_orderRecordsAt : orderRecordsAt oneOrderClient.table (lit "o1") := by
  intro it h _
  rw [oneOrderClient_table] at h
  rw [List.mem_singleton.mp h]
  exact orderRecord_isOrderRecord sampleOrder

/-- The table of `twoOrdersClient` holds the records of `orderB` and `orderA`. -/
theorem twoOrdersClient_table :
    twoOrdersClient.table = [orderRecord orderB, orderRecord orderA] := rfl

theorem twoOrdersClient_has_order :
    ∃ it ∈ twoOrdersClient.table, Item.str it "sk" = some (orderSK (lit "a")) :=
  ⟨orderRecord orderA, by rw [twoOrdersClient_table]; simp,
    (Item.str_of_key _ _ (orderRecord_key orderA)).2⟩

theorem twoOrdersClient_orderRecordsAt : orderRecordsAt twoOrdersClient.table (lit "a") := by
  intro it h _
  rw [twoOrdersClient_table] at h
  have h2 : it = orderRecord orderB ∨ it = orderRecord orderA := by simpa using h
  rcases h2 with h2 | h2 <;> rw [h2]
  · exact orderRecord_isOrderRecord orderB
  · exact orderRecord_isOrderRecord orderA

theorem no_faults_of_nil (faults : List (Option Error)) (h : faults = []) :
    ∀ f ∈ faults, f = none := by
  intro f hf
  rw [h] at hf
  exact absurd hf (List.not_mem_nil f)

/-- The records a successful `UpdateOrderStatus` leaves under the key it addresses: there is
one, and each of them is a status-updated record. -/
theorem UpdateOrderStatus_record (c c2 : Client) (orderID : GoString) (status : OrderStatus)
    (now1 now2 : Time) (h : UpdateOrderStatus c orderID status now1 now2 = (.ok (), c2)) :
    ∃ k : Key, k.sk = orderSK orderID ∧ (∃ it ∈ c2.table, Item.key it = some k) ∧
      ∀ it ∈ c2.table, Item.key it = some k → ∃ it0, it = statusUpdated it0 status now1 now2 := by
  obtain ⟨userID, _, ht⟩ := UpdateOrderStatus_ok c c2 orderID status now1 now2 h
  have hk : (statusUpdate userID orderID status now1 now2).key = ⟨userPK userID, orderSK orderID⟩ := by
    unfold statusUpdate
    split <;> rfl
  refine ⟨⟨userPK userID, orderSK orderID⟩, rfl, ?_, ?_⟩
  · rw [ht, ← hk]
    apply updateInto_exists
    intro it
    rw [applyUpdate_statusUpdate, statusUpdated_key]
  · intro it hit hkey
    rw [ht] at hit
    rcases mem_updateInto _ _ _ hit with ⟨_, hne⟩ | ⟨it0, h0⟩
    · rw [hk] at hne
      exact absurd hkey hne
    · exact ⟨it0, by rw [h0, applyUpdate_statusUpdate]⟩

/-! ## Status projection -/

/-- C2: `placed_id` is present exactly for the statuses pending and confirmed. For every
order, the record `CreateOrder` writes (which is in the table once the call succeeds) carries
`placed_id`, with the status string as value, when the status is pending or confirmed, and
carries no `placed_id` attribute for any other status. For every status value,
`UpdateOrderStatus` on an existing order (with a service that fails no call) returns without
error and turns the records of the order, stored under `("#USER#" + owner, "#ORDER#" +
orderID)`, into records under the same key that carry `placed_id` with the status as value
when the status is pending or confirmed, and no `placed_id` attribute otherwise: the
attribute is removed, not emptied. -/
theorem placed_id_iff_pending_or_confirmed :
    (∀ order : Order,
      (order.Status = OrderStatusPending ∨ order.Status = OrderStatusConfirmed →
        Item.get (orderRecord order) "placed_id" = some (.S order.Status)) ∧
      (¬ (order.Status = OrderStatusPending ∨ order.Status = OrderStatusConfirmed) →
        Item.get (orderRecord order) "placed_id" = none)) ∧
    (∀ (c c1 : Client) (order : Order), CreateOrder c order = (.ok (), c1) →
      orderRecord order ∈ c1.table) ∧
    (∀ (c : Client) (orderID : GoString) (status : OrderStatus) (now1 now2 : Time),
      (∀ f ∈ c.faults, f = none) →
      (∃ it ∈ c.table, Item.str it "sk" = some (orderSK orderID)) →
      orderRecordsAt c.table orderID →
      ∃ owner,
        (∃ it ∈ c.table, Item.key it = some ⟨userPK owner, orderSK orderID⟩) ∧
        (UpdateOrderStatus c orderID status now1 now2).1 = .ok () ∧
        (UpdateOrderStatus c orderID status now1 now2).2.table.map Item.key
          = c.table.map Item.key ∧
        (∃ it ∈ (UpdateOrderStatus c orderID status now1 now2).2.table,
          Item.key it = some ⟨userPK owner, orderSK orderID⟩) ∧
        ∀ it ∈ (UpdateOrderStatus c orderID status now1 now2).2.table,
          Item.key it = some ⟨userPK owner, orderSK orderID⟩ →
          (status = OrderStatusPending ∨ status = OrderStatusConfirmed →
            Item.get it "placed_id" = some (.S status)) ∧
          (¬ (status = OrderStatusPending ∨ status = OrderStatusConfirmed) →
            Item.get it "placed_id" = none)) := by
  refine ⟨?_, ?_, ?_⟩
  · intro order
    unfold orderRecord
    constructor
    · intro h
      simp only [h, if_true]
      exact Item.get_set_self _ _ _
    · intro h
      simp only [h, if_false]
      rw [Item.get_set_ne _ _ _ _ (by decide), Item.get_set_ne _ _ _ _ (by decide),
        Item.get_set_ne _ _ _ _ (by decide)]
      rfl
  · intro c c1 order h
    rw [Client.PutItem_ok c c1 _ h]
    exact mem_putInto_self _ _
  · intro c orderID status now1 now2 hfaults hexists hwf
    obtain ⟨owner, hrec, hok, htable, hex, hall⟩ :=
      UpdateOrderStatus_updated c orderID status now1 now2 hfaults hexists hwf
    refine ⟨owner, hrec, hok, ?_, hex, ?_⟩
    · rw [htable, List.map_map]
      apply List.map_congr_left
      intro it _
      simp only [Function.comp]
      split
      · exact statusUpdated_key it status now1 now2
      · rfl
    · intro it hit hkey
      obtain ⟨it0, _, _, h0⟩ := hall it hit hkey
      rw [h0]
      exact statusUpdated_placed_id it0 status now1 now2

/-- Witness of `placed_id_iff_pending_or_confirmed`: the pending `sampleOrder`, with the
clock reading of a zone east of UTC, is created on the empty table, then moved to shipped. -/
theorem placed_id_iff_pending_or_confirmed_witness :
    Item.get (orderRecord sampleOrder) "placed_id" = some (.S OrderStatusPending) ∧
    orderRecord sampleOrder ∈ oneOrderClient.table ∧
    ∃ owner,
      (UpdateOrderStatus oneOrderClient (lit "o1") OrderStatusShipped jan2 jan2).1 = .ok () ∧
      ∀ it ∈ (UpdateOrderStatus oneOrderClient (lit "o1") OrderStatusShipped jan2 jan2).2.table,
        Item.key it = some ⟨userPK owner, orderSK (lit "o1")⟩ →
          Item.get it "placed_id" = none :=
  ⟨(placed_id_iff_pending_or_confirmed.1 sampleOrder).1 (Or.inl rfl),
    placed_id_iff_pending_or_confirmed.2.1 emptyClient oneOrderClient sampleOrder rfl,
    (placed_id_iff_pending_or_confirmed.2.2 oneOrderClient (lit "o1") OrderStatusShipped
      jan2 jan2 (no_faults_of_nil _ rfl) oneOrderClient_has_order
      oneOrderClient_orderRecordsAt).imp fun _ hk =>
        ⟨hk.2.1, fun it hit hkey => (hk.2.2.2.2 it hit hkey).2 (by decide)⟩⟩

/-- C3: `status_date` after a status transition. With `s` one of the five defined statuses,
`UpdateOrderStatus(orderID, s)` on an existing order (with a service that fails no call)
returns without error, and every record then stored under the key of the order has
`status_date` equal to `s`, then `#`, then the date `YYYY-MM-DD` with which the text of the
first clock reading begins, the date in the zone of the clock; the part of `status_date`
before the `#` is `s`, which is also the `status` attribute; and the record has this one
`status_date` entry and no other, whatever it held before. -/
theorem status_date_recomputed (c : Client) (orderID : GoString) (s : OrderStatus)
    (now1 now2 : Time)
    (hs : s = OrderStatusPending ∨ s = OrderStatusConfirmed ∨ s = OrderStatusShipped ∨
      s = OrderStatusDelivered ∨ s = OrderStatusCancelled)
    (hfaults : ∀ f ∈ c.faults, f = none)
    (hexists : ∃ it ∈ c.table, Item.str it "sk" = some (orderSK orderID))
    (hwf : orderRecordsAt c.table orderID) :
    ∃ (y1 y2 y3 y4 m1 m2 d1 d2 : UInt8) (clock owner : GoString),
      now1.val = [y1, y2, y3, y4, 45, m1, m2, 45, d1, d2, 84] ++ clock ∧
      [y1, y2, y3, y4, m1, m2, d1, d2].all isDigit = true ∧
      (∃ it ∈ c.table, Item.key it = some ⟨userPK owner, orderSK orderID⟩) ∧
      (UpdateOrderStatus c orderID s now1 now2).1 = .ok () ∧
      (∃ it ∈ (UpdateOrderStatus c orderID s now1 now2).2.table,
        Item.key it = some ⟨userPK owner, orderSK orderID⟩) ∧
      ∀ it ∈ (UpdateOrderStatus c orderID s now1 now2).2.table,
        Item.key it = some ⟨userPK owner, orderSK orderID⟩ →
        Item.get it "status_date"
          = some (.S (s ++ 35 :: [y1, y2, y3, y4, 45, m1, m2, 45, d1, d2])) ∧
        (s ++ 35 :: [y1, y2, y3, y4, 45, m1, m2, 45, d1, d2]).takeWhile (fun b => b != 35)
          = s ∧
        Item.get it "status" = some (.S s) ∧
        it.filter (fun p => p.1 == "status_date")
          = [("status_date", .S (s ++ 35 :: [y1, y2, y3, y4, 45, m1, m2, 45, d1, d2]))] := by
  obtain ⟨y1, y2, y3, y4, m1, m2, d1, d2, clock, hval, hdig⟩ := Time.val_shape now1
  obtain ⟨owner, hrec, hok, _, hex, hall⟩ :=
    UpdateOrderStatus_updated c orderID s now1 now2 hfaults hexists hwf
  have hdate : statusDate s now1.formatDate
      = s ++ 35 :: [y1, y2, y3, y4, 45, m1, m2, 45, d1, d2] := by
    unfold statusDate Time.formatDate
    rw [hval]
    simp [lit]
  refine ⟨y1, y2, y3, y4, m1, m2, d1, d2, clock, owner, hval, hdig, hrec, hok, hex, ?_⟩
  intro it hit hkey
  obtain ⟨it0, _, _, h0⟩ := hall it hit hkey
  rw [h0, ← hdate]
  refine ⟨(statusUpdated_status it0 s now1 now2).2, ?_, (statusUpdated_status it0 s now1 now2).1,
    statusUpdated_status_date_entries it0 s now1 now2⟩
  rw [hdate]
  rcases hs with hs | hs | hs | hs | hs <;> rw [hs] <;> rfl

/-- Witness of `status_date_recomputed`: `sampleOrder`, created on January 1, is moved to
shipped at a clock reading of January 2 in a zone east of UTC. -/
theorem status_date_recomputed_witness :
    ∃ owner,
      (UpdateOrderStatus oneOrderClient (lit "o1") OrderStatusShipped jan2 jan1).1 = .ok () ∧
      ∀ it ∈ (UpdateOrderStatus oneOrderClient (lit "o1") OrderStatusShipped jan2 jan1).2.table,
        Item.key it = some ⟨userPK owner, orderSK (lit "o1")⟩ →
          Item.get it "status_date" = some (.S (lit "shipped#2024-01-02")) := by
  obtain ⟨y1, y2, y3, y4, m1, m2, d1, d2, clock, owner, hval, _, _, hok, _, hall⟩ :=
    status_date_recomputed oneOrderClient (lit "o1") OrderStatusShipped jan2 jan1
      (Or.inr (Or.inr (Or.inl rfl))) (no_faults_of_nil _ rfl) oneOrderClient_has_order
      oneOrderClient_orderRecordsAt
  have hval2 : lit "2024-01-02T06:43:18.5+08:00"
      = [y1, y2, y3, y4, 45, m1, m2, 45, d1, d2, 84] ++ clock := hval
  simp only [lit, String.toList, List.map, List.cons_append, List.nil_append,
    List.cons.injEq] at hval2
  obtain ⟨e1, e2, e3, e4, -, e5, e6, -, e7, e8, -⟩ := hval2
  refine ⟨owner, hok, fun it hit hkey => ?_⟩
  rw [(hall it hit hkey).1, ← e1, ← e2, ← e3, ← e4, ← e5, ← e6, ← e7, ← e8]
  rfl

/-! ## The pending queue -/

theorem GetPendingOrders_table (c c1 : Client) (r : Except Error (List Order))
    (h : GetPendingOrders c = (r, c1)) : c1.table = c.table := by
  unfold GetPendingOrders at h
  rcases Client.healthy_or_fault c with hh | ⟨e, rest, hf⟩
  · rw [Client.Query_healthy c _ hh] at h
    simp only [Prod.mk.injEq] at h
    rw [← h.2]
  · rw [Client.Query_fault c _ e rest hf] at h
    simp only [Prod.mk.injEq] at h
    rw [← h.2]

/-- What `GetPendingOrders` returns: the orders decoded from the records whose `placed_id`
is `pending`. -/
theorem mem_GetPendingOrders (c : Client) (orders : List Order)
    (h : (GetPendingOrders c).1 = .ok orders) (o : Order) :
    o ∈ orders ↔ ∃ it ∈ c.table,
      Item.str it "placed_id" = some OrderStatusPending ∧ unmarshalOrder it = .ok o := by
  unfold GetPendingOrders at h
  rcases Client.healthy_or_fault c with hh | ⟨e, rest, hf⟩
  · rw [Client.Query_healthy c _ hh] at h
    simp only [Except.ok.injEq] at h
    rw [← h, List.mem_filterMap]
    constructor
    · rintro ⟨it, hit, hd⟩
      obtain ⟨h1, _, h3⟩ := (mem_queryItems c.table pendingQuery rfl it).mp hit
      refine ⟨it, h1, by simpa [pendingQuery, KeyCondition.holds, Index.hashAttr] using h3, ?_⟩
      cases hu : unmarshalOrder it with
      | error e => simp [hu] at hd
      | ok o2 =>
        simp only [hu, Option.some.injEq] at hd
        rw [hd]
    · rintro ⟨it, hit, hp, hu⟩
      refine ⟨it, (mem_queryItems c.table pendingQuery rfl it).mpr ⟨hit, ?_, ?_⟩, by simp [hu]⟩
      · simp [pendingQuery, Index.lists, Index.hashAttr, Index.rangeAttr, hp]
      · simp [pendingQuery, KeyCondition.holds, Index.hashAttr, hp]
  · rw [Client.Query_fault c _ e rest hf] at h
    simp at h

theorem statusUpdated_str_placed_id (it : Item) (status : OrderStatus) (now1 now2 : Time) :
    Item.str (statusUpdated it status now1 now2) "placed_id"
      = if status = OrderStatusPending ∨ status = OrderStatusConfirmed then some status
        else none := by
  by_cases h : status = OrderStatusPending ∨ status = OrderStatusConfirmed
  · rw [if_pos h]
    simp [Item.str, (statusUpdated_placed_id it status now1 now2).1 h]
  · rw [if_neg h]
    simp [Item.str, (statusUpdated_placed_id it status now1 now2).2 h]

/-- C1 (as stated, refuted): `sampleOrder` is moved to confirmed; the update succeeds, the
record of the order has status confirmed, and `GetPendingOrders` returns no order. -/
theorem confirmed_order_missing_from_pending_query :
    (UpdateOrderStatus oneOrderClient (lit "o1") OrderStatusConfirmed jan2 jan2).1 = .ok () ∧
    (UpdateOrderStatus oneOrderClient (lit "o1") OrderStatusConfirmed jan2 jan2).2.table.map
        (fun it => (Item.str it "sk", Item.str it "status"))
      = [(some (orderSK (lit "o1")), some OrderStatusConfirmed)] ∧
    (GetPendingOrders
      (UpdateOrderStatus oneOrderClient (lit "o1") OrderStatusConfirmed jan2 jan2).2).1
      = .ok [] :=
  ⟨rfl, rfl, rfl⟩

/-- C1 (amended): for every store state, when its query goes through, `GetPendingOrders`
returns exactly the orders decoded from the records whose `placed_id` is `pending`; and
`UpdateOrderStatus(orderID, confirmed)` on an existing order (with a service that fails no
call) returns without error and leaves the records of the order, stored under
`("#USER#" + owner, "#ORDER#" + orderID)`, with status `confirmed` and `placed_id`
`confirmed`, so that none of them is among the records that `GetPendingOrders` reads. -/
theorem GetPendingOrders_reads_placed_pending :
    (∀ (c : Client) (orders : List Order), (GetPendingOrders c).1 = .ok orders →
      ∀ o : Order, o ∈ orders ↔ ∃ it ∈ c.table,
        Item.str it "placed_id" = some OrderStatusPending ∧ unmarshalOrder it = .ok o) ∧
    (∀ (c : Client) (orderID : GoString) (now1 now2 : Time),
      (∀ f ∈ c.faults, f = none) →
      (∃ it ∈ c.table, Item.str it "sk" = some (orderSK orderID)) →
      orderRecordsAt c.table orderID →
      ∃ owner,
        (∃ it ∈ c.table, Item.key it = some ⟨userPK owner, orderSK orderID⟩) ∧
        (UpdateOrderStatus c orderID OrderStatusConfirmed now1 now2).1 = .ok () ∧
        (∃ it ∈ (UpdateOrderStatus c orderID OrderStatusConfirmed now1 now2).2.table,
          Item.key it = some ⟨userPK owner, orderSK orderID⟩) ∧
        ∀ it ∈ (UpdateOrderStatus c orderID OrderStatusConfirmed now1 now2).2.table,
          Item.key it = some ⟨userPK owner, orderSK orderID⟩ →
          Item.str it "status" = some OrderStatusConfirmed ∧
          Item.str it "placed_id" = some OrderStatusConfirmed ∧
          it ∉ queryItems (UpdateOrderStatus c orderID OrderStatusConfirmed now1 now2).2.table
            pendingQuery) := by
  refine ⟨mem_GetPendingOrders, ?_⟩
  intro c orderID now1 now2 hfaults hexists hwf
  obtain ⟨owner, hrec, hok, _, hex, hall⟩ :=
    UpdateOrderStatus_updated c orderID OrderStatusConfirmed now1 now2 hfaults hexists hwf
  refine ⟨owner, hrec, hok, hex, ?_⟩
  intro it hit hkey
  obtain ⟨it0, _, _, h0⟩ := hall it hit hkey
  have hp : Item.str it "placed_id" = some OrderStatusConfirmed := by
    rw [h0, statusUpdated_str_placed_id]
    simp
  refine ⟨?_, hp, ?_⟩
  · rw [h0]
    simp [Item.str, (statusUpdated_status it0 OrderStatusConfirmed now1 now2).1]
  · intro hq
    obtain ⟨_, _, h3⟩ := queryItems_subset _ _ _ hq
    simp only [pendingQuery, KeyCondition.holds, Index.hashAttr, hp, beq_iff_eq,
      Option.some.injEq] at h3
    exact absurd h3 (by decide)

/-- Witness of `GetPendingOrders_reads_placed_pending`: on the table that holds the pending
`sampleOrder` the query returns it, and after the move to confirmed its record is not read. -/
theorem GetPendingOrders_reads_placed_pending_witness :
    (sampleOrder ∈ [sampleOrder] ↔ ∃ it ∈ oneOrderClient.table,
      Item.str it "placed_id" = some OrderStatusPending ∧ unmarshalOrder it = .ok sampleOrder) ∧
    ∃ owner,
      (UpdateOrderStatus oneOrderClient (lit "o1") OrderStatusConfirmed jan2 jan2).1 = .ok () ∧
      ∀ it ∈ (UpdateOrderStatus oneOrderClient (lit "o1") OrderStatusConfirmed jan2 jan2).2.table,
        Item.key it = some ⟨userPK owner, orderSK (lit "o1")⟩ →
          it ∉ queryItems
            (UpdateOrderStatus oneOrderClient (lit "o1") OrderStatusConfirmed jan2 jan2).2.table
            pendingQuery :=
  ⟨GetPendingOrders_reads_placed_pending.1 oneOrderClient [sampleOrder] rfl sampleOrder,
    (GetPendingOrders_reads_placed_pending.2 oneOrderClient (lit "o1") jan2 jan2
      (no_faults_of_nil _ rfl) oneOrderClient_has_order oneOrderClient_orderRecordsAt).imp
      fun _ hk => ⟨hk.2.1, fun it hit hkey => (hk.2.2.2 it hit hkey).2.2⟩⟩

/-- C4: an order created through `CreateOrder` with status pending is in the result of the
`GetPendingOrders` that follows; and once `UpdateOrderStatus` has moved that order to
shipped, delivered or cancelled, no order with its id is in the result of `GetPendingOrders`.
The order id is taken to be borne by no other record of the store. -/
theorem pending_queue_follows_status (c c1 c2 c3 c4 : Client) (order : Order)
    (orders orders2 : List Order) (s : OrderStatus) (now1 now2 : Time)
    (hunique : orderIDUnique c.table order.UserID order.ID)
    (hpending : order.Status = OrderStatusPending)
    (hcreate : CreateOrder c order = (.ok (), c1))
    (hget : GetPendingOrders c1 = (.ok orders, c2))
    (hs : s = OrderStatusShipped ∨ s = OrderStatusDelivered ∨ s = OrderStatusCancelled)
    (hupdate : UpdateOrderStatus c2 order.ID s now1 now2 = (.ok (), c3))
    (hget2 : GetPendingOrders c3 = (.ok orders2, c4)) :
    order ∈ orders ∧ ∀ o ∈ orders2, o.ID ≠ order.ID := by
  have ht1 : c1.table = putInto c.table (orderRecord order) := Client.PutItem_ok c c1 _ hcreate
  have ht2 : c2.table = c1.table := GetPendingOrders_table c1 c2 _ hget
  constructor
  · refine (mem_GetPendingOrders c1 orders (by rw [hget]) order).mpr
      ⟨orderRecord order, ?_, orderRecord_placed_pending order hpending,
        unmarshalOrder_orderRecord order⟩
    rw [ht1]
    exact mem_putInto_self _ _
  · obtain ⟨userID, ⟨it, hit, hsk, pk, hpk, hslice⟩, ht3⟩ :=
      UpdateOrderStatus_ok c2 c3 order.ID s now1 now2 hupdate
    have hpk2 : Item.str it "pk" = some (userPK order.UserID) := by
      rw [ht2, ht1] at hit
      rcases mem_putInto _ _ _ hit with h1 | ⟨h1, _⟩
      · rw [h1]
        exact (Item.str_of_key _ _ (orderRecord_key order)).1
      · exact (hunique it h1).1 hsk
    have huser : userID = order.UserID := by
      rw [hpk2] at hpk
      simp only [Option.some.injEq] at hpk
      rw [← hpk, goSliceFrom_userPK] at hslice
      simpa using hslice.symm
    have hk : (statusUpdate userID order.ID s now1 now2).key
        = Entity.key (.order order.UserID order.ID) := by
      rw [huser]
      unfold statusUpdate
      split <;> rfl
    have hnot : ¬ (s = OrderStatusPending ∨ s = OrderStatusConfirmed) := by
      rcases hs with hs | hs | hs <;> rw [hs] <;> decide
    intro o ho hid
    obtain ⟨it2, hit2, hp, hu⟩ := (mem_GetPendingOrders c3 orders2 (by rw [hget2]) o).mp ho
    rw [ht3] at hit2
    rcases mem_updateInto _ _ _ hit2 with ⟨hmem, hne⟩ | ⟨it0, h0⟩
    · rw [hk] at hne
      rw [ht2, ht1] at hmem
      rcases mem_putInto _ _ _ hmem with h1 | ⟨h1, _⟩
      · rw [h1] at hne
        exact hne (orderRecord_key order)
      · exact hne ((hunique it2 h1).2 o hu hid)
    · rw [h0, applyUpdate_statusUpdate, statusUpdated_str_placed_id, if_neg hnot] at hp
      simp at hp

/-- Witness of `pending_queue_follows_status`: `sampleOrder` is created on a table that holds
`orderB`, read from the pending queue, moved to shipped, and the queue is read again. -/
theorem pending_queue_follows_status_witness :
    sampleOrder ∈ [orderB, sampleOrder] ∧ ∀ o ∈ [orderB], o.ID ≠ sampleOrder.ID :=
  pending_queue_follows_status orderBClient
    (CreateOrder orderBClient sampleOrder).2
    (GetPendingOrders (CreateOrder orderBClient sampleOrder).2).2
    (UpdateOrderStatus (GetPendingOrders (CreateOrder orderBClient sampleOrder).2).2 (lit "o1")
      OrderStatusShipped jan2 jan2).2
    (GetPendingOrders (UpdateOrderStatus
      (GetPendingOrders (CreateOrder orderBClient sampleOrder).2).2 (lit "o1")
      OrderStatusShipped jan2 jan2).2).2
    sampleOrder [orderB, sampleOrder] [orderB] OrderStatusShipped jan2 jan2
    (fun it h => by
      have h2 : it = orderRecord orderB := by
        simpa using (show it ∈ [orderRecord orderB] from h)
      subst h2
      refine ⟨fun hs => ?_, fun o hu hid => ?_⟩
      · rw [(Item.str_of_key _ _ (orderRecord_key orderB)).2] at hs
        exact absurd hs (by decide)
      · rw [unmarshalOrder_orderRecord] at hu
        simp only [Except.ok.injEq] at hu
        rw [← hu] at hid
        exact absurd hid (by decide))
    rfl rfl rfl (Or.inl rfl) rfl rfl

/-! ## Orders of a user -/

theorem byte_eq_of_toNat_eq (a b : UInt8) (h : a.toNat = b.toNat) : a = b := by
  cases a with
  | mk x =>
    cases b with
    | mk y => exact congrArg UInt8.mk (BitVec.eq_of_toNat_eq h)

theorem bytesLE_total (a b : GoString) : bytesLE a b = true ∨ bytesLE b a = true := by
  induction a generalizing b with
  | nil => left; simp [bytesLE]
  | cons x xs ih =>
    cases b with
    | nil => right; simp [bytesLE]
    | cons y ys =>
      simp only [bytesLE, Bool.or_eq_true, decide_eq_true_eq, Bool.and_eq_true, beq_iff_eq]
      rcases Nat.lt_trichotomy x.toNat y.toNat with h | h | h
      · exact Or.inl (Or.inl h)
      · have hxy : x = y := byte_eq_of_toNat_eq x y h
        rcases ih ys with h2 | h2
        · exact Or.inl (Or.inr ⟨hxy, h2⟩)
        · exact Or.inr (Or.inr ⟨hxy.symm, h2⟩)
      · exact Or.inr (Or.inl h)

theorem bytesLE_trans (a b c : GoString) (h1 : bytesLE a b = true) (h2 : bytesLE b c = true) :
    bytesLE a c = true := by
  induction a generalizing b c with
  | nil => simp [bytesLE]
  | cons x xs ih =>
    cases b with
    | nil => simp [bytesLE] at h1
    | cons y ys =>
      cases c with
      | nil => simp [bytesLE] at h2
      | cons z zs =>
        simp only [bytesLE, Bool.or_eq_true, decide_eq_true_eq, Bool.and_eq_true, beq_iff_eq]
          at h1 h2 ⊢
        rcases h1 with h1 | ⟨e1, h1⟩
        · rcases h2 with h2 | ⟨e2, h2⟩
          · exact Or.inl (Nat.lt_trans h1 h2)
          · exact Or.inl (e2 ▸ h1)
        · rcases h2 with h2 | ⟨e2, h2⟩
          · exact Or.inl (e1 ▸ h2)
          · exact Or.inr ⟨e1.trans e2, ih ys zs h1 h2⟩

theorem bytesLE_append_left (p x y : GoString) : bytesLE (p ++ x) (p ++ y) = bytesLE x y := by
  induction p with
  | nil => rfl
  | cons a p ih => simp [bytesLE, ih]

/-- With `ScanIndexForward` false the hits come in descending order of sort key. -/
theorem queryHits_descending (table : List Item) (q : QueryInput)
    (h : q.scanIndexForward = false) :
    (queryHits table q).Pairwise
      (fun a b => bytesLE (q.index.rangeOf b) (q.index.rangeOf a) = true) := by
  unfold queryHits
  simp only [h, Bool.false_eq_true, if_false]
  rw [List.pairwise_reverse]
  haveI : IsTotal Item (fun a b => bytesLE (q.index.rangeOf a) (q.index.rangeOf b) = true) :=
    ⟨fun a b => bytesLE_total _ _⟩
  haveI : IsTrans Item (fun a b => bytesLE (q.index.rangeOf a) (q.index.rangeOf b) = true) :=
    ⟨fun a b c => bytesLE_trans _ _ _⟩
  exact List.sorted_insertionSort _ _

/-- The result loop on items whose sort keys begin with `#ORDER#`: no slice is out of range,
and the result is the accumulator followed by the orders of the items that decode. -/
theorem GetOrdersByUserID.collect_eq (userID : GoString) (items : List Item) :
    ∀ acc : List Order, (∀ it ∈ items, ∃ id, Item.str it "sk" = some (orderSK id)) →
      GetOrdersByUserID.collect userID items acc
        = .ok (acc ++ items.filterMap (GetOrdersByUserID.orderOf userID)) := by
  induction items with
  | nil => intro acc _; simp [GetOrdersByUserID.collect]
  | cons item rest ih =>
    intro acc h
    have hrest : ∀ it ∈ rest, ∃ id, Item.str it "sk" = some (orderSK id) :=
      fun it hit => h it (List.mem_cons_of_mem _ hit)
    obtain ⟨id, hid⟩ := h item (List.mem_cons_self _ _)
    unfold GetOrdersByUserID.collect
    cases hu : unmarshalOrder item with
    | error e =>
      simp only [List.filterMap_cons, GetOrdersByUserID.orderOf, hu]
      exact ih acc hrest
    | ok o =>
      simp only [Item.get_of_str item "sk" _ hid, goSliceFrom_orderSK, List.filterMap_cons,
        GetOrdersByUserID.orderOf, hu, hid, Option.getD_some]
      rw [ih _ hrest]
      have hd : (orderSK id).drop 7 = id := by simp [orderSK, lit]
      simp [hd]

/-- C7 (as stated, refuted): `orderB` is created on January 1 and `orderA` on January 2,
both for `alice`; `GetOrdersByUserID` lists the older `orderB` first. -/
theorem orders_listed_by_id_not_by_age :
    (GetOrdersByUserID twoOrdersClient (lit "alice")).1 = .ok [orderB, orderA] ∧
    ¬ newestFirst [orderB, orderA] :=
  ⟨rfl, by unfold newestFirst; decide⟩

/-- C7 (amended): when its query goes through, `GetOrdersByUserID` returns, and returns
exactly the orders built from the records that decode, whose partition key is
`"#USER#" + userID` and whose sort key is `"#ORDER#" + id` for some `id`, each with the user
of the request and that `id`; they are listed in descending bytewise order of the sort key,
that is of the order id, whatever the creation times. -/
theorem GetOrdersByUserID_descending_by_id (c : Client) (userID : GoString)
    (hc : c.healthy = true) :
    ∃ orders, (GetOrdersByUserID c userID).1 = .ok orders ∧
      (∀ o : Order, o ∈ orders ↔ ∃ it ∈ c.table, ∃ id o0,
        Item.str it "pk" = some (userPK userID) ∧ Item.str it "sk" = some (orderSK id) ∧
        unmarshalOrder it = .ok o0 ∧ o = { o0 with UserID := userID, ID := id }) ∧
      orders.Pairwise (fun a b => bytesLE b.ID a.ID = true) := by
  have hform : ∀ it,
      it ∈ queryHits c.table (userOrdersQuery userID) ↔
      it ∈ c.table ∧ Item.str it "pk" = some (userPK userID) ∧
        ∃ id, Item.str it "sk" = some (orderSK id) := by
    intro it
    rw [mem_queryHits]
    simp only [userOrdersQuery, Index.lists, Index.hashAttr, Index.rangeAttr, KeyCondition.holds,
      Index.rangeOf, Bool.and_eq_true, beq_iff_eq]
    constructor
    · rintro ⟨hit, ⟨_, hsk⟩, hpk, hbeg⟩
      refine ⟨hit, hpk, ?_⟩
      cases hs : Item.str it "sk" with
      | none => simp [hs] at hsk
      | some sk =>
        simp only [hs, Option.getD_some] at hbeg
        obtain ⟨id, hid⟩ := List.isPrefixOf_iff_prefix.mp hbeg
        exact ⟨id, by rw [← hid]; rfl⟩
    · rintro ⟨hit, hpk, id, hsk⟩
      refine ⟨hit, ⟨by simp [hpk], by simp [hsk]⟩, hpk, ?_⟩
      rw [hsk]
      exact List.isPrefixOf_iff_prefix.mpr ⟨id, rfl⟩
  have hcol := GetOrdersByUserID.collect_eq userID (queryHits c.table (userOrdersQuery userID))
    [] (fun it hit => ((hform it).mp hit).2.2)
  rw [List.nil_append] at hcol
  refine ⟨List.filterMap (GetOrdersByUserID.orderOf userID)
    (queryHits c.table (userOrdersQuery userID)), ?_, ?_, ?_⟩
  · unfold GetOrdersByUserID
    rw [Client.Query_healthy c _ hc]
    have hq : queryItems c.table (userOrdersQuery userID)
        = queryHits c.table (userOrdersQuery userID) := rfl
    simp only [hq]
    exact hcol
  · intro o
    simp only [List.mem_filterMap]
    constructor
    · rintro ⟨it, hit, ho⟩
      obtain ⟨h1, hpk, id, hsk⟩ := (hform it).mp hit
      refine ⟨it, h1, id, ?_⟩
      unfold GetOrdersByUserID.orderOf at ho
      cases hu : unmarshalOrder it with
      | error e => simp [hu] at ho
      | ok o0 =>
        have hd : (orderSK id).drop 7 = id := by simp [orderSK, lit]
        simp only [hu, hsk, Option.getD_some, hd, Option.some.injEq] at ho
        exact ⟨o0, hpk, hsk, rfl, ho.symm⟩
    · rintro ⟨it, hit, id, o0, hpk, hsk, hu, ho⟩
      refine ⟨it, (hform it).mpr ⟨hit, hpk, id, hsk⟩, ?_⟩
      have hd : (orderSK id).drop 7 = id := by simp [orderSK, lit]
      simp [GetOrdersByUserID.orderOf, hu, hsk, hd, ho]
  · rw [List.pairwise_filterMap]
    refine List.Pairwise.imp_of_mem ?_ (queryHits_descending c.table (userOrdersQuery userID) rfl)
    intro a b ha hb hab oa hoa ob hob
    obtain ⟨_, _, ida, hska⟩ := (hform a).mp ha
    obtain ⟨_, _, idb, hskb⟩ := (hform b).mp hb
    have hd : ∀ id : GoString, (orderSK id).drop 7 = id := fun id => by simp [orderSK, lit]
    simp only [userOrdersQuery, Index.rangeOf, Index.rangeAttr, hska, hskb,
      Option.getD_some] at hab
    simp only [orderSK, bytesLE_append_left] at hab
    unfold GetOrdersByUserID.orderOf at hoa hob
    cases hua : unmarshalOrder a with
    | error e => simp [hua] at hoa
    | ok a0 =>
      cases hub : unmarshalOrder b with
      | error e => simp [hub] at hob
      | ok b0 =>
        simp only [hua, hska, Option.getD_some, hd, Option.mem_def, Option.some.injEq] at hoa
        simp only [hub, hskb, Option.getD_some, hd, Option.mem_def, Option.some.injEq] at hob
        rw [← hoa, ← hob]
        exact hab

/-- Witness of `GetOrdersByUserID_descending_by_id`: the two orders of `alice`. -/
theorem GetOrdersByUserID_descending_by_id_witness :
    ∃ orders, (GetOrdersByUserID twoOrdersClient (lit "alice")).1 = .ok orders ∧
      orders.Pairwise (fun a b => bytesLE b.ID a.ID = true) :=
  (GetOrdersByUserID_descending_by_id twoOrdersClient (lit "alice") rfl).imp
    fun _ h => ⟨h.1, h.2.2⟩

/-! ## Emptying the table -/

theorem deleteKeyOf_key (it : Item) (h : (Item.key it).isSome = true) :
    (Item.key (deleteKeyOf it)).isSome = true := by
  cases hk : Item.key it with
  | none => simp [hk] at h
  | some k =>
    obtain ⟨hp, hs⟩ := Item.str_of_key it k hk
    have gp := Item.get_of_str it "pk" _ hp
    have gs := Item.get_of_str it "sk" _ hs
    simp only [deleteKeyOf, gp, gs]
    rfl

/-- The delete key built for a keyed item: its `pk` and its `sk`, nothing else. -/
theorem deleteKeyOf_eq (it : Item) (k : Key) (hk : Item.key it = some k) :
    deleteKeyOf it = [("pk", .S k.pk), ("sk", .S k.sk)] := by
  obtain ⟨hp, hs⟩ := Item.str_of_key it k hk
  have gp := Item.get_of_str it "pk" _ hp
  have gs := Item.get_of_str it "sk" _ hs
  simp only [deleteKeyOf, gp, gs]
  rfl

theorem deleteKeyOf_key_eq (it : Item) (h : (Item.key it).isSome = true) :
    Item.key (deleteKeyOf it) = Item.key it := by
  cases hk : Item.key it with
  | none => simp [hk] at h
  | some k =>
    rw [deleteKeyOf_eq it k hk]
    rfl

/-- Deleting under the delete keys of keyed items removes the records stored under the keys
of those items. -/
theorem deleteFrom_deleteKeys (table l : List Item)
    (hkeys : ∀ p ∈ l, (Item.key p).isSome = true) :
    deleteFrom table (l.map deleteKeyOf)
      = table.filter (fun it => !(l.any (fun p => Item.key p == Item.key it))) := by
  unfold deleteFrom
  apply List.filter_congr
  intro it _
  congr 1
  induction l with
  | nil => rfl
  | cons p rest ih =>
    simp only [List.map_cons, List.any_cons]
    rw [ih (fun q hq => hkeys q (List.mem_cons_of_mem _ hq)),
      deleteKeyOf_key_eq p (hkeys p (List.mem_cons_self _ _))]

theorem Client.BatchWriteItem_ok (c : Client) (keys : List Item) (hc : c.healthy = true)
    (h1 : 1 ≤ keys.length) (h2 : keys.length ≤ 25)
    (h3 : ∀ k ∈ keys, (Item.key k).isSome = true) :
    c.BatchWriteItem keys = (.ok (),
      { table := deleteFrom c.table keys, faults := c.faults.tail,
        log := c.log ++ [.batchWriteItem keys] }) := by
  unfold Client.BatchWriteItem
  rw [Client.call_healthy c _ hc]
  have h4 : keys.all (fun k => (Item.key k).isSome) = true := List.all_eq_true.mpr h3
  simp only [h1, h2, h4, and_self, if_true]

theorem EmptyTable.deletePage_batches (items : List Item)
    (hkeys : ∀ it ∈ items, (Item.key it).isSome = true) :
    ∀ (n i : Nat) (c : Client), items.length - i ≤ n → (∀ f ∈ c.faults, f = none) →
      ∃ batches : List (List Item),
        (EmptyTable.deletePage items i c).1 = .ok () ∧
        (EmptyTable.deletePage items i c).2.log = c.log ++ batches.map Request.batchWriteItem ∧
        (∀ b ∈ batches, 1 ≤ b.length ∧ b.length ≤ 25) ∧
        batches.length = (items.length - i + 24) / 25 ∧
        batches.flatten = (items.drop i).map deleteKeyOf ∧
        (EmptyTable.deletePage items i c).2.table
          = c.table.filter (fun it =>
              !((items.drop i).any (fun p => Item.key p == Item.key it))) := by
  intro n
  induction n with
  | zero =>
    intro i c hn _
    have hi : ¬ i < items.length := by omega
    refine ⟨[], ?_, ?_, ?_, ?_, ?_, ?_⟩
    · rw [EmptyTable.deletePage]; simp [hi]
    · rw [EmptyTable.deletePage]; simp [hi]
    · simp
    · simp; omega
    · simp [List.drop_eq_nil_of_le (Nat.le_of_not_lt hi)]
    · rw [EmptyTable.deletePage]
      simp [hi, List.drop_eq_nil_of_le (Nat.le_of_not_lt hi)]
  | succ n ih =>
    intro i c hn hf
    by_cases hi : i < items.length
    · have hreq : ((items.drop i).take
          ((if i + 25 > items.length then items.length else i + 25) - i)).map deleteKeyOf
          = ((items.drop i).take 25).map deleteKeyOf := by
        split
        · rw [List.take_of_length_le (by simp), List.take_of_length_le (by simp; omega)]
        · have : i + 25 - i = 25 := by omega
          rw [this]
      have hlen : (((items.drop i).take 25).map deleteKeyOf).length = min 25 (items.length - i) := by
        simp
      have hc : c.healthy = true := by
        rcases Client.healthy_or_fault c with hh | ⟨e, rest, he⟩
        · exact hh
        · have := hf (some e) (by rw [he]; exact List.mem_cons_self _ _)
          simp at this
      have hb := Client.BatchWriteItem_ok c (((items.drop i).take 25).map deleteKeyOf) hc
        (by rw [hlen]; omega) (by rw [hlen]; omega)
        (by
          intro k hk
          obtain ⟨it, hit, rfl⟩ := List.mem_map.mp hk
          exact deleteKeyOf_key it (hkeys it (List.mem_of_mem_drop (List.mem_of_mem_take hit))))
      obtain ⟨bs, h1, h2, h3, h4, h5, h6⟩ := ih (i + 25)
        { table := deleteFrom c.table (((items.drop i).take 25).map deleteKeyOf),
          faults := c.faults.tail,
          log := c.log ++ [.batchWriteItem (((items.drop i).take 25).map deleteKeyOf)] }
        (by omega) (fun f hfm => hf f (List.mem_of_mem_tail hfm))
      have hstep : EmptyTable.deletePage items i c = EmptyTable.deletePage items (i + 25)
          { table := deleteFrom c.table (((items.drop i).take 25).map deleteKeyOf),
            faults := c.faults.tail,
            log := c.log ++ [.batchWriteItem (((items.drop i).take 25).map deleteKeyOf)] } := by
        rw [EmptyTable.deletePage]
        simp only [hi, if_true, hreq]
        have hpos : (((items.drop i).take 25).map deleteKeyOf).length > 0 := by rw [hlen]; omega
        simp only [hpos, if_true, hb]
      have hdd : List.drop (i + 25) items = List.drop 25 (List.drop i items) := by
        simp [List.drop_drop, Nat.add_comm]
      refine ⟨((items.drop i).take 25).map deleteKeyOf :: bs, ?_, ?_, ?_, ?_, ?_, ?_⟩
      · rw [hstep]; exact h1
      · rw [hstep, h2]; simp
      · intro b hbm
        rcases List.mem_cons.mp hbm with hb1 | hb1
        · rw [hb1, hlen]; omega
        · exact h3 b hb1
      · rw [List.length_cons, h4]; omega
      · rw [List.flatten_cons, h5, ← List.map_append, hdd, List.take_append_drop]
      · rw [hstep, h6]
        simp only []
        rw [deleteFrom_deleteKeys c.table _
          (fun q hq => hkeys q (List.mem_of_mem_drop (List.mem_of_mem_take hq))),
          List.filter_filter, hdd]
        apply List.filter_congr
        intro it _
        have happ : (items.drop i).any (fun p => Item.key p == Item.key it)
            = (((items.drop i).take 25).any (fun p => Item.key p == Item.key it)
              || ((items.drop i).drop 25).any (fun p => Item.key p == Item.key it)) := by
          rw [← List.any_append, List.take_append_drop]
        rw [happ]
        cases ((items.drop i).take 25).any (fun p => Item.key p == Item.key it) <;>
          cases ((items.drop i).drop 25).any (fun p => Item.key p == Item.key it) <;> rfl
    · refine ⟨[], ?_, ?_, ?_, ?_, ?_, ?_⟩
      · rw [EmptyTable.deletePage]; simp [hi]
      · rw [EmptyTable.deletePage]; simp [hi]
      · simp
      · simp; omega
      · simp [List.drop_eq_nil_of_le (Nat.le_of_not_lt hi)]
      · rw [EmptyTable.deletePage]
        simp [hi, List.drop_eq_nil_of_le (Nat.le_of_not_lt hi)]

/-- C10: the page loop of `EmptyTable`. For a scanned page of `n` items (each with its two
key attributes) and a service that fails no call and processes every key of a batch, the
loop returns without error and issues exactly the `BatchWriteItem` requests of a list of
batches such that each batch holds at least 1 and at most 25 delete keys, the number of
batches is `ceil(n / 25)`, and the batches in order, put end to end, are the delete keys of
the items of the page in order, each the map of the `pk` and the `sk` of its item and of
nothing else: every item has its key in one batch, once. The table afterwards is the old
one without the records stored under the keys of the items of the page. -/
theorem EmptyTable_page_batches (c : Client) (items : List Item)
    (hfaults : ∀ f ∈ c.faults, f = none)
    (hkeys : ∀ it ∈ items, (Item.key it).isSome = true) :
    ∃ batches : List (List Item),
      (EmptyTable.deletePage items 0 c).1 = .ok () ∧
      (EmptyTable.deletePage items 0 c).2.log = c.log ++ batches.map Request.batchWriteItem ∧
      (∀ b ∈ batches, 1 ≤ b.length ∧ b.length ≤ 25) ∧
      batches.length = (items.length + 24) / 25 ∧
      batches.flatten = items.map (fun it =>
        match Item.key it with
        | some k => [("pk", AttributeValue.S k.pk), ("sk", AttributeValue.S k.sk)]
        | none => []) ∧
      (EmptyTable.deletePage items 0 c).2.table
        = c.table.filter (fun it => !(items.any (fun p => Item.key p == Item.key it))) := by
  obtain ⟨bs, h1, h2, h3, h4, h5, h6⟩ :=
    EmptyTable.deletePage_batches items hkeys items.length 0 c (by omega) hfaults
  refine ⟨bs, h1, h2, h3, by simpa using h4, ?_, by simpa using h6⟩
  rw [h5, List.drop_zero]
  apply List.map_congr_left
  intro it hit
  cases hk : Item.key it with
  | none => have := hkeys it hit; simp [hk] at this
  | some k => exact deleteKeyOf_eq it k hk

/-- Witness of `EmptyTable_page_batches`: a page of 26 order records is deleted in 2
batches from a table that holds them and an account; the account stays. -/
theorem EmptyTable_page_batches_witness :
    ∃ batches : List (List Item),
      (EmptyTable.deletePage page26 0 page26Client).1 = .ok () ∧
      (EmptyTable.deletePage page26 0 page26Client).2.log
        = batches.map Request.batchWriteItem ∧
      batches.length = 2 ∧
      (EmptyTable.deletePage page26 0 page26Client).2.table
        = [userRecord ⟨lit "alice", lit "Alice", [], none⟩] :=
  (EmptyTable_page_batches page26Client page26
    (no_faults_of_nil _ rfl)
    (fun it h => by
      obtain ⟨n, _, rfl⟩ := List.mem_map.mp h
      rw [orderRecord_key]
      rfl)).imp
    fun _ h => ⟨h.1, h.2.1, h.2.2.2.1.trans (by simp [page26]), h.2.2.2.2.2.trans rfl⟩

/-! ## Handlers -/

/-- C8 (as stated, refuted): with the service failing the query, `GetUser` returns the
service error and the handler of `GET /users/{username}` still answers 404, not a 5xx. -/
theorem store_failure_answers_404 :
    (GetUser downClient (lit "alice")).1 = .error "RequestError: send request failed" ∧
    (API.GetUser downClient (lit "alice")).1.status = 404 :=
  ⟨rfl, rfl⟩

/-- C8 (amended): the handler of `GET /users/{username}` answers 404 with the text
`user not found` when the query goes through and no account is stored under the key of
`username`, and it answers 404 as well, with the text of the service error, when the query
itself fails: every error of `GetUser` is mapped to 404. -/
theorem GetUser_handler_answers_404 (c : Client) (username : GoString) :
    (c.healthy = true →
      (∀ it ∈ c.table, Item.key it ≠ some (Entity.key (.account username))) →
      (API.GetUser c username).1 = ⟨StatusNotFound, .text "user not found"⟩) ∧
    (∀ e rest, c.faults = some e :: rest →
      (API.GetUser c username).1 = ⟨StatusNotFound, .text e⟩) := by
  constructor
  · intro hc hno
    have hq : queryItems c.table (userQuery username) = [] := by
      apply queryItems_eq_nil
      intro it hit
      have h1 := hno it hit
      by_contra hcon
      apply h1
      simp only [userQuery, Index.lists, Index.hashAttr, Index.rangeAttr, KeyCondition.holds,
        Index.rangeOf, Bool.not_eq_false, Bool.and_eq_true, beq_iff_eq] at hcon
      obtain ⟨⟨_, hsk⟩, hpk, hr⟩ := hcon
      cases hs : Item.str it "sk" with
      | none => simp [hs] at hsk
      | some s =>
        simp only [hs, Option.getD_some] at hr
        simp [Item.key, hpk, hs, hr, Entity.key]
    unfold API.GetUser GetUser
    rw [Client.Query_healthy c _ hc, hq]
  · intro e rest hf
    unfold API.GetUser GetUser
    rw [Client.Query_fault c _ e rest hf]

/-- Witness of `GetUser_handler_answers_404`: an empty table behind a healthy service, and
the failing service of `downClient`. -/
theorem GetUser_handler_answers_404_witness :
    (API.GetUser emptyClient (lit "alice")).1 = ⟨StatusNotFound, .text "user not found"⟩ ∧
    (API.GetUser downClient (lit "alice")).1
      = ⟨StatusNotFound, .text "RequestError: send request failed"⟩ :=
  ⟨(GetUser_handler_answers_404 emptyClient (lit "alice")).1 rfl
      (fun it h => absurd h (List.not_mem_nil it)),
    (GetUser_handler_answers_404 downClient (lit "alice")).2 _ _ rfl⟩

/-- C9: invalid input is rejected before any store access. `POST /users` with an empty
username and `POST /orders` with an empty `user_id` answer 400 and leave the client as it
was: no request is issued (the log is unchanged) and the table is unchanged. The same holds
for a body that does not decode. -/
theorem invalid_input_rejected_before_store_access (c : Client) :
    (∀ user : User, user.Username = [] →
      API.CreateUser c (some user) = (⟨StatusBadRequest, .text "Username is required"⟩, c)) ∧
    (∀ (req : CreateOrderRequest) (id : GoString) (now1 now2 : Time), req.UserID = [] →
      API.CreateOrder c (some req) id now1 now2
        = (⟨StatusBadRequest, .text "user_id is required"⟩, c)) ∧
    API.CreateUser c none = (⟨StatusBadRequest, .text "Invalid JSON"⟩, c) ∧
    (∀ (id : GoString) (now1 now2 : Time),
      API.CreateOrder c none id now1 now2 = (⟨StatusBadRequest, .text "Invalid JSON"⟩, c)) := by
  refine ⟨?_, ?_, rfl, fun _ _ _ => rfl⟩
  · intro user h
    simp [API.CreateUser, h]
  · intro req id now1 now2 h
    simp [API.CreateOrder, h]

/-- Witness of `invalid_input_rejected_before_store_access`: a user without username and an
order request without `user_id`, sent to a client that holds a table and a log. -/
theorem invalid_input_rejected_before_store_access_witness :
    API.CreateUser downClient (some ⟨[], lit "Alice", [], none⟩)
      = (⟨400, .text "Username is required"⟩, downClient) ∧
    API.CreateOrder downClient (some ⟨[], lit "home"⟩) (lit "o1") Time.zero Time.zero
      = (⟨400, .text "user_id is required"⟩, downClient) :=
  ⟨(invalid_input_rejected_before_store_access downClient).1 _ rfl,
    (invalid_input_rejected_before_store_access downClient).2.1 _ _ _ _ rfl⟩

/-! ## The frame of a status update -/

/-- C11: the frame of a status update. On a table where the records stored under the sort
key `"#ORDER#" + orderID` are order records, one of them at least, and with a service that
fails no call, `UpdateOrderStatus` returns without error for every status; after the lookup
query it issues exactly one request, an update addressed to the key
`("#USER#" + owner, "#ORDER#" + orderID)` of an order record of the table; the update names
no attribute other than `status`, `status_date`, `updated_at` and `placed_id`; the table
afterwards is the old one with the records under that key status-updated and every other
record as it was; and the status update leaves every other attribute of a record (`pk`,
`sk`, `address_key`, `created_at` among them) unchanged. -/
theorem UpdateOrderStatus_frame (c : Client) (orderID : GoString) (status : OrderStatus)
    (now1 now2 : Time) (hfaults : ∀ f ∈ c.faults, f = none)
    (hexists : ∃ it ∈ c.table, Item.str it "sk" = some (orderSK orderID))
    (hwf : orderRecordsAt c.table orderID) :
    ∃ owner,
      (∃ it ∈ c.table, Item.key it = some ⟨userPK owner, orderSK orderID⟩) ∧
      (UpdateOrderStatus c orderID status now1 now2).1 = .ok () ∧
      (UpdateOrderStatus c orderID status now1 now2).2.log
        = c.log ++ [.query (orderQuery orderID),
            .updateItem (statusUpdate owner orderID status now1 now2)] ∧
      (statusUpdate owner orderID status now1 now2).key = ⟨userPK owner, orderSK orderID⟩ ∧
      (∀ n ∈ (statusUpdate owner orderID status now1 now2).sets.map Prod.fst
          ++ (statusUpdate owner orderID status now1 now2).removes,
        n ∈ statusAttributes) ∧
      (UpdateOrderStatus c orderID status now1 now2).2.table
        = c.table.map (fun it =>
            if Item.key it = some ⟨userPK owner, orderSK orderID⟩ then
              statusUpdated it status now1 now2
            else it) ∧
      (∀ (it : Item) (name : String), name ∉ statusAttributes →
        Item.get (statusUpdated it status now1 now2) name = Item.get it name) := by
  obtain ⟨owner, hrec, hrun⟩ :=
    UpdateOrderStatus_runs c orderID status now1 now2 hfaults hexists hwf
  refine ⟨owner, hrec, by rw [hrun], by rw [hrun],
    statusUpdate_key owner orderID status now1 now2,
    statusUpdate_names owner orderID status now1 now2, by rw [hrun],
    fun it name h => statusUpdated_get_other it status now1 now2 name h⟩

/-- Witness of `UpdateOrderStatus_frame`: of the two orders of `alice`, order `a` is moved
to shipped. -/
theorem UpdateOrderStatus_frame_witness :
    ∃ owner,
      (UpdateOrderStatus twoOrdersClient (lit "a") OrderStatusShipped jan2 jan2).1 = .ok () ∧
      (UpdateOrderStatus twoOrdersClient (lit "a") OrderStatusShipped jan2 jan2).2.log
        = twoOrdersClient.log ++ [.query (orderQuery (lit "a")),
            .updateItem (statusUpdate owner (lit "a") OrderStatusShipped jan2 jan2)] ∧
      (UpdateOrderStatus twoOrdersClient (lit "a") OrderStatusShipped jan2 jan2).2.table
        = twoOrdersClient.table.map (fun it =>
            if Item.key it = some ⟨userPK owner, orderSK (lit "a")⟩ then
              statusUpdated it OrderStatusShipped jan2 jan2
            else it) :=
  (UpdateOrderStatus_frame twoOrdersClient (lit "a") OrderStatusShipped jan2 jan2
    (fun f h => absurd (show f ∈ ([] : List (Option Error)) from h) (List.not_mem_nil f))
    ⟨orderRecord orderA,
      (show orderRecord orderA ∈ [orderRecord orderB, orderRecord orderA] by simp),
      (Item.str_of_key _ _ (orderRecord_key orderA)).2⟩
    (fun it h _ => by
      have h2 : it = orderRecord orderB ∨ it = orderRecord orderA := by
        simpa using (show it ∈ [orderRecord orderB, orderRecord orderA] from h)
      rcases h2 with h2 | h2 <;> rw [h2]
      · exact ⟨⟨lit "alice", (Item.str_of_key _ _ (orderRecord_key orderB)).1⟩, orderB,
          unmarshalOrder_orderRecord orderB⟩
      · exact ⟨⟨lit "alice", (Item.str_of_key _ _ (orderRecord_key orderA)).1⟩, orderA,
          unmarshalOrder_orderRecord orderA⟩)).imp
    fun _ h => ⟨h.2.1, h.2.2.1, h.2.2.2.2.2.1⟩

/-- C12: a missing order. When the query goes through and no record is stored under the
sort key `"#ORDER#" + orderID`, `UpdateOrderStatus` returns the error `order not found`; the
only request it issues is the lookup query, no update, and the table is the one it found: no
record is created for the missing order. -/
theorem UpdateOrderStatus_order_not_found (c : Client) (orderID : GoString)
    (status : OrderStatus) (now1 now2 : Time) (hc : c.healthy = true)
    (hnone : ∀ it ∈ c.table, Item.str it "sk" ≠ some (orderSK orderID)) :
    (UpdateOrderStatus c orderID status now1 now2).1 = .error "order not found" ∧
    (UpdateOrderStatus c orderID status now1 now2).2.table = c.table ∧
    (UpdateOrderStatus c orderID status now1 now2).2.log
      = c.log ++ [.query (orderQuery orderID)] := by
  have hq : queryItems c.table (orderQuery orderID) = [] := by
    apply queryItems_eq_nil
    intro it hit
    have h1 := hnone it hit
    by_contra hcon
    apply h1
    simp only [orderQuery, Index.hashAttr, KeyCondition.holds, Bool.not_eq_false,
      Bool.and_eq_true, beq_iff_eq] at hcon
    exact hcon.2
  have hg : GetOrderByID c orderID = (.error "order not found",
      { c with faults := c.faults.tail, log := c.log ++ [.query (orderQuery orderID)] }) := by
    unfold GetOrderByID
    rw [Client.Query_healthy c _ hc, hq]
  unfold UpdateOrderStatus
  rw [hg]
  exact ⟨rfl, rfl, rfl⟩

/-- Witness of `UpdateOrderStatus_order_not_found`: the table holds `sampleOrder`, of id
`o1`, and the status of an order `zz` is asked for. -/
theorem UpdateOrderStatus_order_not_found_witness :
    (UpdateOrderStatus oneOrderClient (lit "zz") OrderStatusShipped jan2 jan2).1
      = .error "order not found" ∧
    (UpdateOrderStatus oneOrderClient (lit "zz") OrderStatusShipped jan2 jan2).2.table
      = oneOrderClient.table ∧
    (UpdateOrderStatus oneOrderClient (lit "zz") OrderStatusShipped jan2 jan2).2.log
      = oneOrderClient.log ++ [.query (orderQuery (lit "zz"))] :=
  UpdateOrderStatus_order_not_found oneOrderClient (lit "zz") OrderStatusShipped jan2 jan2 rfl
    (fun it h => by
      have h2 : it = orderRecord sampleOrder := by
        simpa using (show it ∈ [orderRecord sampleOrder] from h)
      rw [h2, (Item.str_of_key _ _ (orderRecord_key sampleOrder)).2]
      decide)

/-! ## Stores written by the repository -/

theorem Client.PutItem_table (c : Client) (item : Item) :
    (c.PutItem item).2.table = c.table ∨ (c.PutItem item).2.table = putInto c.table item := by
  unfold Client.PutItem
  rcases Client.healthy_or_fault c with hh | ⟨e, rest, hf⟩
  · rw [Client.call_healthy c _ hh]
    simp only []
    split
    · exact Or.inr rfl
    · exact Or.inl rfl
  · rw [Client.call_fault c _ e rest hf]
    exact Or.inl rfl

theorem entityKeyed_PutItem (c : Client) (item : Item) (h : entityKeyed c.table)
    (hitem : ∃ e : Entity, Item.key item = some (Entity.key e)) :
    entityKeyed (c.PutItem item).2.table := by
  rcases Client.PutItem_table c item with ht | ht
  · rw [ht]
    exact h
  · rw [ht]
    intro it hit
    rcases mem_putInto _ _ _ hit with h1 | ⟨h1, _⟩
    · rw [h1]
      exact hitem
    · exact h it h1

theorem entityKeyed_run (c : Client) (w : Write) (h : entityKeyed c.table) :
    entityKeyed (Write.run c w).table := by
  cases w with
  | createUser user => exact entityKeyed_PutItem c _ h ⟨_, userRecord_key user⟩
  | createOrder order => exact entityKeyed_PutItem c _ h ⟨_, orderRecord_key order⟩
  | createOrderItem orderID item =>
    exact entityKeyed_PutItem c _ h ⟨_, orderItemRecord_key orderID item⟩

theorem entityKeyed_runWrites (ws : List Write) :
    ∀ c : Client, entityKeyed c.table → entityKeyed (runWrites c ws).table := by
  induction ws with
  | nil => intro c h; exact h
  | cons w rest ih =>
    intro c h
    exact ih (Write.run c w) (entityKeyed_run c w h)

/-- In a table of accounts, orders and order items, a record under the sort key of an order
has the partition key of a user. -/
theorem entityKeyed_order_owner (table : List Item) (h : entityKeyed table) (it : Item)
    (hit : it ∈ table) (orderID : GoString)
    (hsk : Item.str it "sk" = some (orderSK orderID)) :
    ∃ u, Item.str it "pk" = some (userPK u) := by
  obtain ⟨e, he⟩ := h it hit
  obtain ⟨hp, hs⟩ := Item.str_of_key it _ he
  rw [hs] at hsk
  cases e with
  | account username =>
    simp [Entity.key, orderSK, lit] at hsk
  | order username oid => exact ⟨username, hp⟩
  | orderItem oid itemID =>
    simp [Entity.key, orderSK, itemSK, lit] at hsk

/-- The records matched by the query of `GetOrdersByUserID`. -/
theorem mem_userOrdersQuery (table : List Item) (userID : GoString) (it : Item)
    (h : it ∈ queryHits table (userOrdersQuery userID)) :
    ∃ id, Item.str it "sk" = some (orderSK id) := by
  obtain ⟨_, hl, hh⟩ := (mem_queryHits table (userOrdersQuery userID) it).mp h
  simp only [userOrdersQuery, Index.lists, Index.hashAttr, Index.rangeAttr, KeyCondition.holds,
    Index.rangeOf, Bool.and_eq_true, beq_iff_eq] at hl hh
  cases hs : Item.str it "sk" with
  | none => simp [hs] at hl
  | some sk =>
    simp only [hs, Option.getD_some] at hh
    obtain ⟨id, hid⟩ := List.isPrefixOf_iff_prefix.mp hh.2
    exact ⟨id, by rw [← hid]; rfl⟩

theorem GetOrdersByUserID_no_panic (c : Client) (userID : GoString) :
    (GetOrdersByUserID c userID).1 ≠ .panic := by
  unfold GetOrdersByUserID
  rcases Client.healthy_or_fault c with hh | ⟨e, rest, hf⟩
  · rw [Client.Query_healthy c _ hh]
    have hq : queryItems c.table (userOrdersQuery userID)
        = queryHits c.table (userOrdersQuery userID) := rfl
    simp only [hq]
    rw [GetOrdersByUserID.collect_eq userID _ [] (fun it hit => mem_userOrdersQuery _ _ it hit)]
    simp
  · rw [Client.Query_fault c _ e rest hf]
    simp

theorem GetOrderByID_no_panic (c : Client) (orderID : GoString) (h : entityKeyed c.table) :
    (GetOrderByID c orderID).1 ≠ .panic := by
  unfold GetOrderByID
  rcases Client.healthy_or_fault c with hh | ⟨e, rest, hf⟩
  · rw [Client.Query_healthy c _ hh]
    cases hq : queryItems c.table (orderQuery orderID) with
    | nil => simp
    | cons hd tl =>
      obtain ⟨hhd, _, hhold⟩ :=
        queryItems_subset c.table (orderQuery orderID) hd (by rw [hq]; exact List.mem_cons_self _ _)
      have hsk : Item.str hd "sk" = some (orderSK orderID) := by
        simpa [orderQuery, KeyCondition.holds, Index.hashAttr] using hhold
      obtain ⟨u, hpk⟩ := entityKeyed_order_owner c.table h hd hhd orderID hsk
      simp only []
      cases hu : unmarshalOrder hd with
      | error e => simp
      | ok o => simp [Item.get_of_str hd "pk" _ hpk, goSliceFrom_userPK]
  · rw [Client.Query_fault c _ e rest hf]
    simp

/-- C13: the fixed-offset slices stay in range on the records the repository writes. In
every store reached from an empty table through `CreateUser`, `CreateOrder` and
`CreateOrderItem`, whatever their outcomes, every record matched by the query of
`GetOrderByID` (`sk = "#ORDER#" + orderID`) has a partition key `"#USER#" + u`, of at least
6 bytes, so that `pk[6:]` is defined and is `u`; every record matched by the query of
`GetOrdersByUserID` has a sort key `"#ORDER#" + id`, of at least 7 bytes, so that `sk[7:]`
is defined and is `id`; and neither function panics. -/
theorem key_slices_in_range (faults : List (Option Error)) (log : List Request)
    (ws : List Write) :
    (∀ (orderID : GoString), ∀ it ∈ queryHits (runWrites ⟨[], faults, log⟩ ws).table
        (orderQuery orderID),
      ∃ pk u, Item.str it "pk" = some pk ∧ pk = lit "#USER#" ++ u ∧ 6 ≤ pk.length ∧
        goSliceFrom pk 6 = some u) ∧
    (∀ (userID : GoString), ∀ it ∈ queryHits (runWrites ⟨[], faults, log⟩ ws).table
        (userOrdersQuery userID),
      ∃ sk id, Item.str it "sk" = some sk ∧ sk = lit "#ORDER#" ++ id ∧ 7 ≤ sk.length ∧
        goSliceFrom sk 7 = some id) ∧
    (∀ orderID : GoString,
      (GetOrderByID (runWrites ⟨[], faults, log⟩ ws) orderID).1 ≠ .panic) ∧
    (∀ userID : GoString,
      (GetOrdersByUserID (runWrites ⟨[], faults, log⟩ ws) userID).1 ≠ .panic) := by
  have hinv : entityKeyed (runWrites ⟨[], faults, log⟩ ws).table :=
    entityKeyed_runWrites ws ⟨[], faults, log⟩ (fun it hit => absurd hit (List.not_mem_nil it))
  refine ⟨?_, ?_, fun orderID => GetOrderByID_no_panic _ orderID hinv,
    fun userID => GetOrdersByUserID_no_panic _ userID⟩
  · intro orderID it hit
    obtain ⟨hmem, _, hhold⟩ := (mem_queryHits _ _ it).mp hit
    have hsk : Item.str it "sk" = some (orderSK orderID) := by
      simpa [orderQuery, KeyCondition.holds, Index.hashAttr] using hhold
    obtain ⟨u, hpk⟩ := entityKeyed_order_owner _ hinv it hmem orderID hsk
    exact ⟨userPK u, u, hpk, rfl, by simp [userPK, lit], goSliceFrom_userPK u⟩
  · intro userID it hit
    obtain ⟨id, hsk⟩ := mem_userOrdersQuery _ _ it hit
    exact ⟨orderSK id, id, hsk, rfl, by simp [orderSK, lit], goSliceFrom_orderSK id⟩

end Inventory
